import Mathlib

/-!
# rlz: a run-length codec with a multi-threaded encoder

A shallow embedding of `src/main.c`.

* Memory is one flat byte-addressed space (`Mem`), pointers are addresses
  (`Nat`).  A cell that was never written keeps whatever the initial memory
  held, which is how the contents of the `malloc`ed buffer are represented.
* `size_t` is 64 bits wide; a `size_t` object in memory occupies eight cells,
  least significant byte first.
* The worker threads of `rlz_encode` are run one after the other in index
  order; `pthread_create`, `pthread_join` and `malloc` are taken to succeed.
* The sink of `rlz_decode` (a `FILE *`) is the list of bytes written so far.
* Addresses and sizes are natural numbers: the buffers are taken to lie inside
  the address space, so that pointer arithmetic does not wrap.  The one
  `size_t` sum that is not bounded by the input length, the `+=` of the merge,
  is reduced modulo `2 ^ 64`.
* Library calls (`memmove`, `fread`, `fwrite`, `strtol`, `isspace`) are given
  by their ISO C meaning.
* `records`, `expand`, `canonical`, `count_sum`, `scan_runs`,
  `max_run_encoding`, `layout` and `regions` are not code of the program: they
  read record sequences out of memory and state what the theorems say about
  them.
-/

namespace Rlz

/-- Flat byte-addressed memory. -/
abbrev Mem := Nat → Nat

/-- The value of `sizeof(size_t)`. -/
def sizeof_size_t : Nat := 8

/-- The number of values of type `size_t`. -/
def SIZE_MOD : Nat := 2 ^ 64

/-- Source: `size_t blksize = sizeof(size_t) + sizeof(char);`. -/
def blksize : Nat := sizeof_size_t + 1

/-- Store of one `char`: `*p = v`. -/
def store_char (m : Mem) (p v : Nat) : Mem :=
  fun a => if a = p then v else m a

/-- Load of a `size_t`: `*(size_t *) p`. -/
def load_size_t (m : Mem) (p : Nat) : Nat :=
  m p % 256 + 256 * (m (p + 1) % 256) + 256 ^ 2 * (m (p + 2) % 256)
    + 256 ^ 3 * (m (p + 3) % 256) + 256 ^ 4 * (m (p + 4) % 256)
    + 256 ^ 5 * (m (p + 5) % 256) + 256 ^ 6 * (m (p + 6) % 256)
    + 256 ^ 7 * (m (p + 7) % 256)

/-- Store of a `size_t`: `*(size_t *) p = v`. -/
def store_size_t (m : Mem) (p v : Nat) : Mem :=
  fun a => if p ≤ a ∧ a < p + sizeof_size_t then v / 256 ^ (a - p) % 256 else m a

/-- The library call `memmove(dst, src, n)`: the `n` bytes at `src` are copied
to `dst` as if through a temporary buffer. -/
def memmove (m : Mem) (dst src n : Nat) : Mem :=
  fun a => if dst ≤ a ∧ a < dst + n then m (src + (a - dst)) else m a

/-- Source: `struct rlz_encoding_packet`. -/
structure rlz_encoding_packet where
  outbuf : Nat
  inbuf : Nat
  inbyte : Nat
  outbyte : Nat
deriving DecidableEq

/-- The local variables of `rlz_encode_subroutine` that its loop changes,
together with the memory. -/
structure subroutine_state where
  mem : Mem
  outbuf : Nat
  outbyte : Nat
  cur : Nat
  count : Nat

/-- The loop `for (i = 1; i < inbyte; i++)` of `rlz_encode_subroutine`
(main.c:268-284), entered at index `i` with `n` iterations left. -/
def subroutine_loop (inbuf : Nat) : Nat → Nat → subroutine_state → subroutine_state
  | 0, _, s => s
  | n + 1, i, s =>
    if s.mem (inbuf + i) ≠ s.cur then
      let m1 := store_size_t s.mem s.outbuf s.count
      let m2 := store_char m1 (s.outbuf + sizeof_size_t) s.cur
      subroutine_loop inbuf n (i + 1)
        { mem := m2, outbuf := s.outbuf + blksize, outbyte := s.outbyte + blksize,
          cur := m2 (inbuf + i), count := 1 }
    else
      subroutine_loop inbuf n (i + 1) { s with count := s.count + 1 }

/-- Source: `rlz_encode_subroutine` (main.c:252-293).  Returns the memory
after the call and the packet with `outbyte` set; the returned pointer is that
same `outbyte`. -/
def rlz_encode_subroutine (m : Mem) (packet : rlz_encoding_packet) :
    Mem × rlz_encoding_packet :=
  let s0 : subroutine_state :=
    { mem := m, outbuf := packet.outbuf, outbyte := 0, cur := m (packet.inbuf + 0), count := 1 }
  let s := subroutine_loop packet.inbuf (packet.inbyte - 1) 1 s0
  let m1 := store_size_t s.mem s.outbuf s.count
  let m2 := store_char m1 (s.outbuf + sizeof_size_t) s.cur
  (m2, { packet with outbyte := s.outbyte + blksize })

/-- The loop `for (i = 0; i < maxthrd_count - 1; i++)` of `rlz_encode` that
fills `packets[i]` (main.c:189-194), entered at index `i` with `n` iterations
left; the packets are returned in index order. -/
def packets_loop (outbuf inbuf chunk_size : Nat) : Nat → Nat → List rlz_encoding_packet
  | 0, _ => []
  | n + 1, i =>
    { inbuf := inbuf + chunk_size * i, inbyte := chunk_size,
      outbuf := outbuf + blksize * chunk_size * i, outbyte := 0 }
      :: packets_loop outbuf inbuf chunk_size n (i + 1)

/-- The packet array of `rlz_encode` once it is filled (main.c:187-199):
`maxthrd_count - 1` packets from the loop and the last remaining packet. -/
def init_packets (outbuf inbuf inbyte maxthrd_count : Nat) : List rlz_encoding_packet :=
  let chunk_size := inbyte / maxthrd_count
  let i := maxthrd_count - 1
  packets_loop outbuf inbuf chunk_size (maxthrd_count - 1) 0 ++
    [{ inbuf := inbuf + chunk_size * i, inbyte := inbyte - chunk_size * i,
       outbuf := outbuf + blksize * chunk_size * i, outbyte := 0 }]

/-- The worker threads (main.c:201-221), run in index order: each packet is
handed to `rlz_encode_subroutine`, which sets its `outbyte`. -/
def run_workers (m : Mem) : List rlz_encoding_packet → Mem × List rlz_encoding_packet
  | [] => (m, [])
  | p :: ps =>
    let r := rlz_encode_subroutine m p
    let rs := run_workers r.1 ps
    (rs.1, r.2 :: rs.2)

/-- The loop `for (i = 0; i < maxthrd_count - 1; i++)` of `rlz_encode` that
joins the chunks (main.c:225-242); the list holds `packets[i + 1]`,
`packets[i + 2]`, ... and the result is the memory and `curr` at loop exit. -/
def reconcile_loop : Mem → Nat → List rlz_encoding_packet → Mem × Nat
  | m, curr, [] => (m, curr)
  | m, curr, p :: ps =>
    if m (curr - 1) ≠ m (curr + sizeof_size_t) then
      reconcile_loop (memmove m curr p.outbuf p.outbyte) (curr + p.outbyte) ps
    else
      let m1 := store_size_t m (curr - blksize)
        ((load_size_t m (curr - blksize) + load_size_t m p.outbuf) % SIZE_MOD)
      if blksize ≠ p.outbyte then
        reconcile_loop (memmove m1 curr (p.outbuf + blksize) (p.outbyte - blksize))
          (curr + (p.outbyte - blksize)) ps
      else
        reconcile_loop m1 curr ps

/-- Source: `rlz_encode` (main.c:166-250) with the global `maxthrd_count` as
an argument.  The result is the memory after the call and the returned byte
count; `none` is the division by zero in `inbyte / maxthrd_count`
(the packet list itself is never empty). -/
def rlz_encode (m : Mem) (outbuf inbuf inbyte maxthrd_count : Nat) : Option (Mem × Nat) :=
  if maxthrd_count = 0 then none
  else
    let w := run_workers m (init_packets outbuf inbuf inbyte maxthrd_count)
    match w.2 with
    | [] => none
    | p0 :: ps =>
      let r := reconcile_loop w.1 (outbuf + p0.outbyte) ps
      some (r.1, r.2 - p0.outbuf)

/-- The loop `while (count--) putc(cur, fp);` of `rlz_decode`. -/
def putc_loop : Nat → Nat → List Nat → List Nat
  | 0, _, fp => fp
  | count + 1, cur, fp => putc_loop count cur (fp ++ [cur])

/-- The loop `for (i = 0; i < nelem; i++)` of `rlz_decode` (main.c:302-310),
with `n` iterations left. -/
def decode_loop (m : Mem) : Nat → Nat → List Nat → List Nat
  | 0, _, fp => fp
  | n + 1, inbuf, fp =>
    let count := load_size_t m inbuf
    let cur := m (inbuf + sizeof_size_t)
    decode_loop m n (inbuf + blksize) (putc_loop count cur fp)

/-- Source: `rlz_decode` (main.c:295-313).  Returns the sink after the call
and the returned `nelem`. -/
def rlz_decode (fp : List Nat) (m : Mem) (inbuf inbyte : Nat) : List Nat × Nat :=
  let nelem := inbyte / blksize
  (decode_loop m nelem inbuf fp, nelem)

/-- The library call `fread(buf, 1, n, fp)` on a file that holds `file`: its
bytes are placed at `buf`. -/
def fread (m : Mem) (buf : Nat) (file : List Nat) : Mem :=
  fun a => if buf ≤ a ∧ a < buf + file.length then file.getD (a - buf) 0 else m a

/-- The `n` bytes of memory that start at `p`, in address order. -/
def bytes_at (m : Mem) : Nat → Nat → List Nat
  | _, 0 => []
  | p, n + 1 => m p :: bytes_at m (p + 1) n

/-- The library call `fwrite(buf, 1, n, fp)`: the `n` bytes at `buf` go to the
file, in order. -/
def fwrite (m : Mem) (buf n : Nat) : List Nat :=
  bytes_at m buf n

/-- The compressing branch of `main` (main.c:117-141) on an input file that
holds `file`, with `malloc` returning the block at `block` of the memory
`heap`.  The result is what is written to the output file; `none` is a run in
which `rlz_encode` does not return. -/
def main_compress (heap : Mem) (block : Nat) (file : List Nat) (maxthrd_count : Nat) :
    Option (List Nat) :=
  let finsize := file.length
  if finsize = 0 then some []
  else
    let inbuf := block
    let outbuf := inbuf + finsize
    let m := fread heap inbuf file
    let nbyte := finsize
    match rlz_encode m outbuf inbuf nbyte maxthrd_count with
    | none => none
    | some r => some (fwrite r.1 outbuf r.2)

/-- The `k` run records laid out from address `p` on, as `(count, symbol)`
pairs in order: each record is a `size_t` count followed by one symbol byte. -/
def records (m : Mem) : Nat → Nat → List (Nat × Nat)
  | _, 0 => []
  | p, k + 1 => (load_size_t m p, m (p + sizeof_size_t)) :: records m (p + blksize) k

/-- The bytes a record sequence stands for: `count` copies of `symbol` for
each record, in order. -/
def expand (rs : List (Nat × Nat)) : List Nat :=
  rs.flatMap (fun r => List.replicate r.1 r.2)

/-- No two adjacent records have the same symbol. -/
def canonical : List (Nat × Nat) → Prop
  | [] => True
  | [_] => True
  | a :: b :: rs => a.2 ≠ b.2 ∧ canonical (b :: rs)

/-- Canonical form can be checked record by record. -/
def canonical_decidable : (rs : List (Nat × Nat)) → Decidable (canonical rs)
  | [] => isTrue trivial
  | [_] => isTrue trivial
  | a :: b :: rs =>
    match canonical_decidable (b :: rs) with
    | isTrue h => if e : a.2 = b.2 then isFalse (fun c => c.1 e) else isTrue ⟨e, h⟩
    | isFalse h => isFalse (fun c => h c.2)

instance (rs : List (Nat × Nat)) : Decidable (canonical rs) := canonical_decidable rs

/-- The scan of the Worker Encoder on a list of bytes (spec §4.3), entered
with current symbol `cur` and run count `count`: a byte equal to `cur` extends
the run, any other byte emits `(count, cur)` and starts a new run, and the
trailing run is emitted at the end. -/
def scan_runs : Nat → Nat → List Nat → List (Nat × Nat)
  | cur, count, [] => [(count, cur)]
  | cur, count, b :: bs =>
    if b ≠ cur then (count, cur) :: scan_runs b 1 bs else scan_runs cur (count + 1) bs

/-- The library test `isspace(c)` in the C locale. -/
def isspace (c : Nat) : Bool :=
  c = 32 || (9 ≤ c && c ≤ 13)

/-- The value of the character `c` as a digit of `strtol`: `0`-`9`, then the
letters in either case from 10 on. -/
def digit_of (c : Nat) : Option Nat :=
  if 48 ≤ c ∧ c ≤ 57 then some (c - 48)
  else if 97 ≤ c ∧ c ≤ 122 then some (c - 97 + 10)
  else if 65 ≤ c ∧ c ≤ 90 then some (c - 65 + 10)
  else none

/-- The digit scan of `strtol` in base `base`: the value of the longest
leading run of digits, added to `acc`, and the characters after it. -/
def strtol_digits (base : Nat) : List Nat → Nat → Nat × List Nat
  | [], acc => (acc, [])
  | c :: cs, acc =>
    match digit_of c with
    | some d => if d < base then strtol_digits base cs (acc * base + d) else (acc, c :: cs)
    | none => (acc, c :: cs)

/-- Whether the text after the sign starts with `0x` or `0X` and a
hexadecimal digit. -/
def strtol_hex_prefix (s : List Nat) : Bool :=
  match s with
  | z :: x :: d :: _ =>
    z = 48 && (x = 120 || x = 88) &&
      (match digit_of d with
        | some v => decide (v < 16)
        | none => false)
  | _ => false

/-- The library call `strtol(nptr, &endptr, 0)` of ISO C in the C locale, with
a 64-bit `long`; the string is given without its terminating NUL.  Returns
the value and the text `endptr` points to: white space is skipped, a sign is
taken, the base is 16 after `0x`, 8 after `0` and 10 otherwise, the value is
clamped to the range of `long`, and with no digit at all the value is 0 and
`endptr` is `nptr`. -/
def strtol (nptr : List Nat) : Int × List Nat :=
  let s := nptr.dropWhile isspace
  let neg : Bool := s.head? = some 45
  let s1 := if s.head? = some 45 ∨ s.head? = some 43 then s.tail else s
  let hex := strtol_hex_prefix s1
  let base := if hex then 16 else if s1.head? = some 48 then 8 else 10
  let s2 := if hex then s1.drop 2 else s1
  let r := strtol_digits base s2 0
  if r.2.length = s2.length then (0, nptr)
  else if neg then (if 2 ^ 63 < r.1 then (-(2 ^ 63 : Int), r.2) else (-(r.1 : Int), r.2))
  else (if 2 ^ 63 - 1 < r.1 then ((2 ^ 63 - 1 : Int), r.2) else ((r.1 : Int), r.2))

/-- The `case 'j'` of the option loop of `main` (main.c:70-74) on the argument
`optarg`: `some n` is the value `maxthrd_count` is left with (the `long`
converted to `unsigned int`), `none` is the `errexit` for an invalid
argument. -/
def option_j (optarg : List Nat) : Option Nat :=
  let r := strtol optarg
  let maxthrd_count := (r.1 % (2 ^ 32 : Int)).toNat
  if r.2 ≠ [] then none else some maxthrd_count

/-- The sum of the counts of a record sequence. -/
def count_sum (rs : List (Nat × Nat)) : Nat :=
  (rs.map (fun r => r.1)).sum

/-- A run of `count` bytes `sym` put in front of a record sequence: it joins
the first record if that has the same symbol and is a record of its own
otherwise. -/
def push_run (count sym : Nat) : List (Nat × Nat) → List (Nat × Nat)
  | [] => [(count, sym)]
  | r :: rs => if r.2 = sym then (r.1 + count, sym) :: rs else (count, sym) :: r :: rs

/-- The maximal-run encoding of a byte sequence: one record per maximal run
of equal bytes, in order. -/
def max_run_encoding : List Nat → List (Nat × Nat)
  | [] => []
  | b :: bs => push_run 1 b (max_run_encoding bs)

/-- The output regions of a list of packets, as `rlz_encode` lays them out
before the workers run: each packet has at least one input byte and an output
region of `blksize` bytes per input byte, the regions follow one another in
list order without overlap, the first starts at or after `lo` and the last
ends at or before `hi`. -/
def layout (hi : Nat) : Nat → List rlz_encoding_packet → Prop
  | lo, [] => lo ≤ hi
  | lo, p :: ps => lo ≤ p.outbuf ∧ 1 ≤ p.inbyte ∧ layout hi (p.outbuf + blksize * p.inbyte) ps

/-- The same layout once the workers have run: in addition every `outbyte` is
a whole number of records, at least one and at most one per input byte. -/
def regions (hi : Nat) : Nat → List rlz_encoding_packet → Prop
  | lo, [] => lo ≤ hi
  | lo, q :: qs =>
    lo ≤ q.outbuf ∧ (∃ k, 1 ≤ k ∧ k ≤ q.inbyte ∧ q.outbyte = blksize * k) ∧
      regions hi (q.outbuf + blksize * q.inbyte) qs

/-! ## Memory, records and the decoding loops -/

theorem load_store_size_t (m : Mem) (p v : Nat) :
    load_size_t (store_size_t m p v) p = v % SIZE_MOD := by
  simp only [load_size_t, store_size_t, sizeof_size_t, SIZE_MOD]
  simp
  omega

theorem load_size_t_congr (m m' : Mem) (p : Nat)
    (h : ∀ a, p ≤ a → a < p + sizeof_size_t → m' a = m a) :
    load_size_t m' p = load_size_t m p := by
  simp only [sizeof_size_t] at h
  simp only [load_size_t]
  rw [h p (by omega) (by omega), h (p + 1) (by omega) (by omega),
    h (p + 2) (by omega) (by omega), h (p + 3) (by omega) (by omega),
    h (p + 4) (by omega) (by omega), h (p + 5) (by omega) (by omega),
    h (p + 6) (by omega) (by omega), h (p + 7) (by omega) (by omega)]

theorem records_congr (m m' : Mem) (k : Nat) : ∀ p : Nat,
    (∀ a, p ≤ a → a < p + blksize * k → m' a = m a) →
    records m' p k = records m p k := by
  induction k with
  | zero => intro p _; rfl
  | succ k ih =>
    intro p h
    simp only [blksize, sizeof_size_t] at h
    simp only [records]
    rw [ih (p + blksize) (by
      intro a h1 h2
      simp only [blksize, sizeof_size_t] at h1 h2
      exact h a (by omega) (by omega))]
    rw [load_size_t_congr m m' p (by
      intro a h1 h2
      simp only [sizeof_size_t] at h2
      exact h a h1 (by omega))]
    rw [h (p + sizeof_size_t) (by simp [sizeof_size_t]) (by simp only [sizeof_size_t]; omega)]

theorem bytes_at_congr (m m' : Mem) (n : Nat) : ∀ p : Nat,
    (∀ a, p ≤ a → a < p + n → m' a = m a) →
    bytes_at m' p n = bytes_at m p n := by
  induction n with
  | zero => intro p _; rfl
  | succ n ih =>
    intro p h
    simp only [bytes_at]
    rw [ih (p + 1) (fun a h1 h2 => h a (by omega) (by omega)), h p (le_refl p) (by omega)]

theorem putc_loop_eq (count cur : Nat) : ∀ fp : List Nat,
    putc_loop count cur fp = fp ++ List.replicate count cur := by
  induction count with
  | zero => intro fp; simp [putc_loop]
  | succ n ih =>
    intro fp
    simp only [putc_loop]
    rw [ih, List.replicate_succ, List.append_assoc]
    rfl

theorem expand_cons (r : Nat × Nat) (rs : List (Nat × Nat)) :
    expand (r :: rs) = List.replicate r.1 r.2 ++ expand rs := by
  simp [expand]

theorem decode_loop_eq (m : Mem) (n : Nat) : ∀ (inbuf : Nat) (fp : List Nat),
    decode_loop m n inbuf fp = fp ++ expand (records m inbuf n) := by
  induction n with
  | zero => intro inbuf fp; simp [decode_loop, records, expand]
  | succ n ih =>
    intro inbuf fp
    simp only [decode_loop, records]
    rw [ih, putc_loop_eq, expand_cons, List.append_assoc]

/-! ## The worker -/

theorem scan_runs_length_pos (l : List Nat) : ∀ cur count : Nat,
    1 ≤ (scan_runs cur count l).length := by
  induction l with
  | nil => intro cur count; simp [scan_runs]
  | cons b bs ih =>
    intro cur count
    simp only [scan_runs]
    split
    · simp
    · exact ih cur (count + 1)

theorem scan_runs_length_le (l : List Nat) : ∀ cur count : Nat,
    (scan_runs cur count l).length ≤ l.length + 1 := by
  induction l with
  | nil => intro cur count; simp [scan_runs]
  | cons b bs ih =>
    intro cur count
    simp only [scan_runs]
    split
    · simpa using ih b 1
    · have := ih cur (count + 1)
      simp only [List.length_cons]
      omega

theorem expand_scan_runs (l : List Nat) : ∀ cur count : Nat,
    expand (scan_runs cur count l) = List.replicate count cur ++ l := by
  induction l with
  | nil => intro cur count; simp [scan_runs, expand]
  | cons b bs ih =>
    intro cur count
    simp only [scan_runs]
    split
    · rw [expand_cons, ih]; simp
    · rename_i h
      have hb : b = cur := by simpa using h
      subst hb
      rw [ih, List.replicate_succ' ]
      simp

theorem bytes_at_length (m : Mem) (n : Nat) : ∀ p : Nat, (bytes_at m p n).length = n := by
  induction n with
  | zero => intro p; rfl
  | succ n ih => intro p; simp [bytes_at, ih]

/-- What the loop of `rlz_encode_subroutine` followed by the final record
write leaves in memory: the records of `scan_runs` on the bytes still to be
read, laid out from the current output position, and nothing else changed. -/
theorem subroutine_loop_records (inbuf : Nat) (n : Nat) : ∀ (i : Nat) (s : subroutine_state),
    s.count + n < SIZE_MOD →
    (inbuf + i + n ≤ s.outbuf ∨ s.outbuf + blksize * (n + 1) ≤ inbuf + i) →
    (s.outbuf + blksize * (scan_runs s.cur s.count (bytes_at s.mem (inbuf + i) n)).length
        = (subroutine_loop inbuf n i s).outbuf + blksize) ∧
    (s.outbyte + blksize * (scan_runs s.cur s.count (bytes_at s.mem (inbuf + i) n)).length
        = (subroutine_loop inbuf n i s).outbyte + blksize) ∧
    records (store_char (store_size_t (subroutine_loop inbuf n i s).mem
          (subroutine_loop inbuf n i s).outbuf (subroutine_loop inbuf n i s).count)
          ((subroutine_loop inbuf n i s).outbuf + sizeof_size_t) (subroutine_loop inbuf n i s).cur)
        s.outbuf (scan_runs s.cur s.count (bytes_at s.mem (inbuf + i) n)).length
      = scan_runs s.cur s.count (bytes_at s.mem (inbuf + i) n) ∧
    (∀ a, a < s.outbuf ∨
        s.outbuf + blksize * (scan_runs s.cur s.count (bytes_at s.mem (inbuf + i) n)).length ≤ a →
      store_char (store_size_t (subroutine_loop inbuf n i s).mem
          (subroutine_loop inbuf n i s).outbuf (subroutine_loop inbuf n i s).count)
          ((subroutine_loop inbuf n i s).outbuf + sizeof_size_t) (subroutine_loop inbuf n i s).cur a
        = s.mem a) := by
  induction n with
  | zero =>
    intro i s hc _
    simp only [subroutine_loop, bytes_at, scan_runs, List.length_singleton, records]
    refine ⟨by simp, by simp, ?_, ?_⟩
    · have h1 : load_size_t (store_char (store_size_t s.mem s.outbuf s.count)
          (s.outbuf + sizeof_size_t) s.cur) s.outbuf = s.count := by
        rw [load_size_t_congr (store_size_t s.mem s.outbuf s.count) _ s.outbuf (by
          intro a h1 h2
          simp only [store_char]
          rw [if_neg (by omega)])]
        rw [load_store_size_t]
        exact Nat.mod_eq_of_lt (by omega)
      rw [h1]
      simp [store_char]
    · intro a ha
      simp only [blksize, sizeof_size_t] at ha
      simp only [store_char, store_size_t, sizeof_size_t]
      rw [if_neg (by omega), if_neg (by omega)]
  | succ n ih =>
    intro i s hc hd
    simp only [blksize, sizeof_size_t] at hd
    simp only [subroutine_loop, bytes_at]
    by_cases hb : s.mem (inbuf + i) = s.cur
    · -- the run goes on
      simp only [hb, ne_eq, not_true_eq_false, ite_false, scan_runs]
      have h := ih (i + 1) { s with count := s.count + 1 } (by simp only; omega)
        (by simp only [blksize, sizeof_size_t]; omega)
      simp only [show inbuf + (i + 1) = inbuf + i + 1 from rfl] at h
      exact h
    · -- a record is written and a new run starts
      simp only [hb, ne_eq, not_false_eq_true, ite_true, scan_runs, List.length_cons, records]
      have hin : ∀ a, inbuf + i ≤ a → a < inbuf + i + (n + 1) →
          store_char (store_size_t s.mem s.outbuf s.count) (s.outbuf + sizeof_size_t) s.cur a
            = s.mem a := by
        intro a h1 h2
        simp only [store_char, store_size_t, sizeof_size_t]
        rw [if_neg (by omega), if_neg (by omega)]
      have hcur : store_char (store_size_t s.mem s.outbuf s.count)
          (s.outbuf + sizeof_size_t) s.cur (inbuf + i) = s.mem (inbuf + i) :=
        hin _ (le_refl _) (by omega)
      have hbytes : bytes_at (store_char (store_size_t s.mem s.outbuf s.count)
          (s.outbuf + sizeof_size_t) s.cur) (inbuf + i + 1) n = bytes_at s.mem (inbuf + i + 1) n :=
        bytes_at_congr _ _ n _ (fun a h1 h2 => hin a (by omega) (by omega))
      have h := ih (i + 1)
        { mem := store_char (store_size_t s.mem s.outbuf s.count) (s.outbuf + sizeof_size_t) s.cur,
          outbuf := s.outbuf + blksize, outbyte := s.outbyte + blksize,
          cur := store_char (store_size_t s.mem s.outbuf s.count)
            (s.outbuf + sizeof_size_t) s.cur (inbuf + i),
          count := 1 }
        (by simp only; omega) (by simp only [blksize, sizeof_size_t]; omega)
      simp only [show inbuf + (i + 1) = inbuf + i + 1 from rfl, hcur, hbytes] at h
      simp only [hcur]
      obtain ⟨h1, h2, h3, h4⟩ := h
      refine ⟨by rw [← h1]; simp only [blksize, sizeof_size_t]; omega,
        by rw [← h2]; simp only [blksize, sizeof_size_t]; omega, ?_, ?_⟩
      · rw [h3]
        have hlow : ∀ a, s.outbuf ≤ a → a < s.outbuf + blksize → _ = _ :=
          fun a h5 h6 => h4 a (Or.inl (by omega))
        rw [load_size_t_congr _ _ s.outbuf (fun a h5 h6 => hlow a h5 (by
          simp only [blksize, sizeof_size_t] at *; omega))]
        rw [hlow (s.outbuf + sizeof_size_t) (by omega) (by simp [blksize])]
        have h1 : load_size_t (store_char (store_size_t s.mem s.outbuf s.count)
            (s.outbuf + sizeof_size_t) s.cur) s.outbuf = s.count := by
          rw [load_size_t_congr (store_size_t s.mem s.outbuf s.count) _ s.outbuf (by
            intro a h1 h2
            simp only [store_char]
            rw [if_neg (by omega)])]
          rw [load_store_size_t]
          exact Nat.mod_eq_of_lt (by omega)
        rw [h1]
        simp [store_char]
      · intro a ha
        simp only [blksize, sizeof_size_t] at ha
        rw [h4 a (by simp only [blksize, sizeof_size_t]; omega)]
        simp only [store_char, store_size_t, sizeof_size_t]
        rw [if_neg (by omega), if_neg (by omega)]

/-- The worker on a chunk of at least one byte: its output region holds the
records of `scan_runs` on the chunk, `outbyte` is their size, and no other
cell of memory is changed. -/
theorem rlz_encode_subroutine_records (m : Mem) (p : rlz_encoding_packet)
    (h1 : 1 ≤ p.inbyte) (h64 : p.inbyte < SIZE_MOD)
    (hd : p.inbuf + p.inbyte ≤ p.outbuf ∨ p.outbuf + blksize * p.inbyte ≤ p.inbuf) :
    (rlz_encode_subroutine m p).2.outbyte
        = blksize * (scan_runs (m p.inbuf) 1 (bytes_at m (p.inbuf + 1) (p.inbyte - 1))).length ∧
    records (rlz_encode_subroutine m p).1 p.outbuf
        (scan_runs (m p.inbuf) 1 (bytes_at m (p.inbuf + 1) (p.inbyte - 1))).length
      = scan_runs (m p.inbuf) 1 (bytes_at m (p.inbuf + 1) (p.inbyte - 1)) ∧
    (∀ a, a < p.outbuf ∨ p.outbuf + blksize *
          (scan_runs (m p.inbuf) 1 (bytes_at m (p.inbuf + 1) (p.inbyte - 1))).length ≤ a →
      (rlz_encode_subroutine m p).1 a = m a) := by
  have h := subroutine_loop_records p.inbuf (p.inbyte - 1) 1
    { mem := m, outbuf := p.outbuf, outbyte := 0, cur := m (p.inbuf + 0), count := 1 }
    (by simp only; omega)
    (by
      simp only [blksize, sizeof_size_t] at hd ⊢
      omega)
  simp only [Nat.add_zero, Nat.zero_add] at h
  obtain ⟨_, h2, h3, h4⟩ := h
  refine ⟨?_, h3, h4⟩
  simp only [rlz_encode_subroutine, Nat.add_zero]
  exact h2.symm

/-! ## The packet array -/

theorem packets_loop_length (outbuf inbuf c : Nat) (n : Nat) : ∀ i : Nat,
    (packets_loop outbuf inbuf c n i).length = n := by
  induction n with
  | zero => intro i; rfl
  | succ n ih => intro i; simp [packets_loop, ih]

theorem packets_loop_getElem? (outbuf inbuf c : Nat) (n : Nat) : ∀ i t : Nat, t < n →
    (packets_loop outbuf inbuf c n i)[t]? =
      some { inbuf := inbuf + c * (i + t), inbyte := c,
             outbuf := outbuf + blksize * c * (i + t), outbyte := 0 } := by
  induction n with
  | zero => intro i t h; omega
  | succ n ih =>
    intro i t h
    cases t with
    | zero => simp [packets_loop]
    | succ t =>
      simp only [packets_loop, List.getElem?_cons_succ]
      rw [ih (i + 1) t (by omega)]
      simp only [show i + 1 + t = i + (t + 1) by omega]

theorem init_packets_length (outbuf inbuf inbyte N : Nat) (hN : 1 ≤ N) :
    (init_packets outbuf inbuf inbyte N).length = N := by
  simp only [init_packets, List.length_append, packets_loop_length, List.length_singleton]
  omega

/-- Every entry of the packet array, by index: chunk `i` starts at
`i * (inbyte / N)`; all chunks but the last have `inbyte / N` bytes and the
last one has the rest. -/
theorem init_packets_getElem? (outbuf inbuf inbyte N i : Nat) (hi : i < N) :
    (init_packets outbuf inbuf inbyte N)[i]? =
      some { inbuf := inbuf + inbyte / N * i,
             inbyte := if i + 1 < N then inbyte / N else inbyte - inbyte / N * (N - 1),
             outbuf := outbuf + blksize * (inbyte / N) * i, outbyte := 0 } := by
  simp only [init_packets]
  by_cases h : i + 1 < N
  · rw [List.getElem?_append_left (by rw [packets_loop_length]; omega),
      packets_loop_getElem? _ _ _ _ _ _ (by omega)]
    simp [h]
  · have hi' : i = N - 1 := by omega
    rw [List.getElem?_append_right (by rw [packets_loop_length]; omega), packets_loop_length]
    subst hi'
    simp [h]

theorem packets_loop_sum (outbuf inbuf c : Nat) (n : Nat) : ∀ i : Nat,
    ((packets_loop outbuf inbuf c n i).map (fun p => p.inbyte)).sum = c * n := by
  induction n with
  | zero => intro i; rfl
  | succ n ih =>
    intro i
    simp only [packets_loop, List.map_cons, List.sum_cons, ih]
    rw [Nat.mul_succ, Nat.add_comm]

/-- C9 (partition exactness): for `N >= 1` workers the `N` packets built by
`rlz_encode` give chunk `i <= N - 2` start `i * (L / N)` and length `L / N`,
and chunk `N - 1` start `(N - 1) * (L / N)` and length `L - (L / N) * (N - 1)`;
the first chunk starts at the input, every chunk ends where the next one
starts, the last one ends at the end of the input, two different chunks do
not overlap, and the lengths add up to `L`. -/
theorem init_packets_partition (outbuf inbuf L N : Nat) (hN : 1 ≤ N) :
    (init_packets outbuf inbuf L N).length = N ∧
    (∀ i, i + 1 < N → ∃ p, (init_packets outbuf inbuf L N)[i]? = some p ∧
        p.inbuf = inbuf + i * (L / N) ∧ p.inbyte = L / N) ∧
    (∃ p, (init_packets outbuf inbuf L N)[N - 1]? = some p ∧
        p.inbuf = inbuf + (N - 1) * (L / N) ∧ p.inbyte = L - (L / N) * (N - 1) ∧
        p.inbuf + p.inbyte = inbuf + L) ∧
    (∃ p, (init_packets outbuf inbuf L N)[0]? = some p ∧ p.inbuf = inbuf) ∧
    (∀ (i : Nat) (p q : rlz_encoding_packet), (init_packets outbuf inbuf L N)[i]? = some p →
        (init_packets outbuf inbuf L N)[i + 1]? = some q → p.inbuf + p.inbyte = q.inbuf) ∧
    (∀ (i j : Nat) (p q : rlz_encoding_packet), i < j → (init_packets outbuf inbuf L N)[i]? = some p →
        (init_packets outbuf inbuf L N)[j]? = some q → p.inbuf + p.inbyte ≤ q.inbuf) ∧
    ((init_packets outbuf inbuf L N).map (fun p => p.inbyte)).sum = L := by
  have hlen := init_packets_length outbuf inbuf L N hN
  have hle : L / N * (N - 1) ≤ L :=
    le_trans (Nat.mul_le_mul_left _ (Nat.sub_le N 1)) (Nat.div_mul_le_self L N)
  refine ⟨hlen, ?_, ?_, ?_, ?_, ?_, ?_⟩
  · intro i hi
    refine ⟨_, init_packets_getElem? outbuf inbuf L N i (by omega), ?_, ?_⟩
    · simp only [Nat.mul_comm]
    · simp [hi]
  · refine ⟨_, init_packets_getElem? outbuf inbuf L N (N - 1) (by omega), ?_, ?_, ?_⟩
    · simp only [Nat.mul_comm]
    · simp [show ¬ (N - 1 + 1 < N) by omega]
    · simp only [show ¬ (N - 1 + 1 < N) by omega, if_false]
      omega
  · refine ⟨_, init_packets_getElem? outbuf inbuf L N 0 (by omega), ?_⟩
    simp
  · intro i p q hp hq
    have hi : i + 1 < N := by
      have := (List.getElem?_eq_some_iff.mp hq).1
      omega
    rw [init_packets_getElem? outbuf inbuf L N i (by omega)] at hp
    rw [init_packets_getElem? outbuf inbuf L N (i + 1) hi] at hq
    cases hp
    cases hq
    simp only [hi, if_true]
    rw [Nat.mul_succ]
    omega
  · intro i j p q hij hp hq
    have hj : j < N := by
      have := (List.getElem?_eq_some_iff.mp hq).1
      omega
    rw [init_packets_getElem? outbuf inbuf L N i (by omega)] at hp
    rw [init_packets_getElem? outbuf inbuf L N j hj] at hq
    cases hp
    cases hq
    simp only [show i + 1 < N by omega, if_true]
    have : L / N * (i + 1) ≤ L / N * j := Nat.mul_le_mul_left _ (by omega)
    rw [Nat.mul_succ] at this
    omega
  · simp only [init_packets, List.map_append, List.sum_append, packets_loop_sum, List.map_cons,
      List.map_nil, List.sum_cons, List.sum_nil]
    omega

/-- Witness for C9: nine input bytes and two workers. -/
theorem init_packets_partition_witness :
    1 ≤ 2 ∧ init_packets 9 0 9 2 =
      [{ outbuf := 9, inbuf := 0, inbyte := 4, outbyte := 0 },
       { outbuf := 45, inbuf := 4, inbyte := 5, outbyte := 0 }] ∧
    ((init_packets 9 0 9 2).map (fun p => p.inbyte)).sum = 9 :=
  ⟨by decide, by decide, (init_packets_partition 9 0 9 2 (by decide)).2.2.2.2.2.2⟩

/-! ## Decoder and worker claims -/

/-- C8 (decoder semantics): on an input of `k * RECORD_SIZE` bytes `rlz_decode`
returns `k`, and what it appends to the sink is, record after record, `count`
copies of `symbol`, the count being the `size_t` in the first eight bytes of
the record and the symbol the byte after it; on the empty input it writes
nothing and returns 0. -/
theorem rlz_decode_semantics (fp : List Nat) (m : Mem) (inbuf k : Nat) :
    rlz_decode fp m inbuf (k * blksize) = (fp ++ expand (records m inbuf k), k) ∧
    rlz_decode fp m inbuf 0 = (fp, 0) := by
  constructor
  · simp only [rlz_decode]
    rw [Nat.mul_div_cancel k (by decide : 0 < blksize), decode_loop_eq]
  · simp [rlz_decode, decode_loop]

/-- C10 (the worker covers its chunk): for a chunk of at least one byte whose
output region does not overlap it, `outbyte` is a whole number of records and
the records in the first `outbyte` bytes of the output region, expanded in
order, are exactly the bytes of the chunk. -/
theorem rlz_encode_subroutine_covers_chunk (m : Mem) (p : rlz_encoding_packet)
    (h1 : 1 ≤ p.inbyte) (h64 : p.inbyte < SIZE_MOD)
    (hd : p.inbuf + p.inbyte ≤ p.outbuf ∨ p.outbuf + blksize * p.inbyte ≤ p.inbuf) :
    blksize * ((rlz_encode_subroutine m p).2.outbyte / blksize)
        = (rlz_encode_subroutine m p).2.outbyte ∧
    expand (records (rlz_encode_subroutine m p).1 p.outbuf
        ((rlz_encode_subroutine m p).2.outbyte / blksize))
      = bytes_at m p.inbuf p.inbyte := by
  obtain ⟨h2, h3, _⟩ := rlz_encode_subroutine_records m p h1 h64 hd
  rw [h2, Nat.mul_div_cancel_left _ (by decide : 0 < blksize), h3, expand_scan_runs]
  refine ⟨rfl, ?_⟩
  obtain ⟨n, hn⟩ : ∃ n, p.inbyte = n + 1 := ⟨p.inbyte - 1, by omega⟩
  rw [hn]
  simp [bytes_at]

/-- Witness for C10: the chunk "aab" at address 0 with its output region at
address 3. -/
theorem rlz_encode_subroutine_covers_chunk_witness :
    (1 ≤ 3 ∧ 3 < SIZE_MOD ∧ (0 + 3 ≤ 3 ∨ 3 + blksize * 3 ≤ 0)) ∧
    (blksize * ((rlz_encode_subroutine (fread (fun _ => 0) 0 [97, 97, 98])
          { outbuf := 3, inbuf := 0, inbyte := 3, outbyte := 0 }).2.outbyte / blksize)
        = (rlz_encode_subroutine (fread (fun _ => 0) 0 [97, 97, 98])
          { outbuf := 3, inbuf := 0, inbyte := 3, outbyte := 0 }).2.outbyte ∧
    expand (records (rlz_encode_subroutine (fread (fun _ => 0) 0 [97, 97, 98])
          { outbuf := 3, inbuf := 0, inbyte := 3, outbyte := 0 }).1 3
        ((rlz_encode_subroutine (fread (fun _ => 0) 0 [97, 97, 98])
          { outbuf := 3, inbuf := 0, inbyte := 3, outbyte := 0 }).2.outbyte / blksize))
      = bytes_at (fread (fun _ => 0) 0 [97, 97, 98]) 0 3) :=
  ⟨⟨by decide, by decide, Or.inl (by decide)⟩,
    rlz_encode_subroutine_covers_chunk (fread (fun _ => 0) 0 [97, 97, 98])
      { outbuf := 3, inbuf := 0, inbyte := 3, outbyte := 0 }
      (by decide) (by decide) (Or.inl (by decide))⟩

/-! ## The encoder at concrete inputs -/

/-- C1 (round trip), evaluated at the input "abbbcd" with three workers, for
every prior content of the buffer: chunk 1 ("bb") collapses into the last
record of chunk 0, the next seam test then reads the stale symbol byte of
chunk 1 at `curr + sizeof(size_t)` in place of the first symbol of chunk 2,
the count of "c" is added to the run of "b", and decoding the 27 bytes that
`rlz_encode` returns writes "abbbbd".  With one worker the same input decodes
to "abbbcd", so the decoded text also depends on the worker count. -/
theorem round_trip_fails_abbbcd (heap : Mem) :
    (rlz_encode (fread heap 0 [97, 98, 98, 98, 99, 100]) 6 0 6 3).map
        (fun r => (r.2, records r.1 6 (r.2 / blksize), (rlz_decode [] r.1 6 r.2).1))
      = some (27, [(1, 97), (4, 98), (1, 100)], [97, 98, 98, 98, 98, 100]) ∧
    [97, 98, 98, 98, 98, 100] ≠ [97, 98, 98, 98, 99, 100] ∧
    (rlz_encode (fread heap 0 [97, 98, 98, 98, 99, 100]) 6 0 6 1).map
        (fun r => (rlz_decode [] r.1 6 r.2).1)
      = some [97, 98, 98, 98, 99, 100] := by
  refine ⟨?_, by decide, ?_⟩
  · simp [rlz_encode, init_packets, packets_loop, run_workers, rlz_encode_subroutine,
      subroutine_loop, reconcile_loop, records, rlz_decode, decode_loop, putc_loop, fread,
      memmove, store_char, store_size_t, load_size_t, blksize, sizeof_size_t, SIZE_MOD]
  · simp [rlz_encode, init_packets, packets_loop, run_workers, rlz_encode_subroutine,
      subroutine_loop, reconcile_loop, rlz_decode, decode_loop, putc_loop, fread,
      store_char, store_size_t, load_size_t, blksize, sizeof_size_t]

/-- C2 (canonical form), evaluated at the input "abbccddx" with four workers,
for every prior content of the buffer: at the last seam the byte read at
`curr + sizeof(size_t)` is the stale symbol "c", so the records of chunk 3 are
appended although they start with the symbol "d" of the last record written,
and the output holds the adjacent records (1, "d"), (1, "d"). -/
theorem canonical_form_fails_abbccddx (heap : Mem) :
    (rlz_encode (fread heap 0 [97, 98, 98, 99, 99, 100, 100, 120]) 8 0 8 4).map
        (fun r => (r.2, records r.1 8 (r.2 / blksize)))
      = some (54, [(1, 97), (2, 98), (2, 99), (1, 100), (1, 100), (1, 120)]) ∧
    ¬ canonical [(1, 97), (2, 98), (2, 99), (1, 100), (1, 100), (1, 120)] := by
  constructor
  · simp [rlz_encode, init_packets, packets_loop, run_workers, rlz_encode_subroutine,
      subroutine_loop, reconcile_loop, records, fread, memmove,
      store_char, store_size_t, load_size_t, blksize, sizeof_size_t, SIZE_MOD]
  · decide

/-- C3 (the scenario "aaabbbccc" with two workers, input at address 0 and
output buffer at address 9): the chunks are "aaab" and "bbccc", the workers
write [(3, a), (1, b)] and [(2, b), (3, c)], and decoding gives back the
input; but the seam test reads cell 35 (`curr + sizeof(size_t)`, a cell of the
region of chunk 0 that no worker wrote), so the two records for "b" are merged
only if the buffer happened to hold "b" there, and otherwise `rlz_encode`
returns 36 bytes holding four records. -/
theorem scenario_aaabbbccc (heap : Mem) :
    init_packets 9 0 9 2 =
      [{ outbuf := 9, inbuf := 0, inbyte := 4, outbyte := 0 },
       { outbuf := 45, inbuf := 4, inbyte := 5, outbyte := 0 }] ∧
    (run_workers (fread heap 0 [97, 97, 97, 98, 98, 98, 99, 99, 99]) (init_packets 9 0 9 2)).2 =
      [{ outbuf := 9, inbuf := 0, inbyte := 4, outbyte := 18 },
       { outbuf := 45, inbuf := 4, inbyte := 5, outbyte := 18 }] ∧
    records (run_workers (fread heap 0 [97, 97, 97, 98, 98, 98, 99, 99, 99])
        (init_packets 9 0 9 2)).1 9 2 = [(3, 97), (1, 98)] ∧
    records (run_workers (fread heap 0 [97, 97, 97, 98, 98, 98, 99, 99, 99])
        (init_packets 9 0 9 2)).1 45 2 = [(2, 98), (3, 99)] ∧
    (rlz_encode (fread heap 0 [97, 97, 97, 98, 98, 98, 99, 99, 99]) 9 0 9 2).map
        (fun r => (r.2, records r.1 9 (r.2 / blksize), (rlz_decode [] r.1 9 r.2).1))
      = some (if heap 35 = 98
          then (27, [(3, 97), (3, 98), (3, 99)], [97, 97, 97, 98, 98, 98, 99, 99, 99])
          else (36, [(3, 97), (1, 98), (2, 98), (3, 99)],
            [97, 97, 97, 98, 98, 98, 99, 99, 99])) := by
  refine ⟨by decide, ?_, ?_, ?_, ?_⟩
  · simp [init_packets, packets_loop, run_workers, rlz_encode_subroutine,
      subroutine_loop, fread, store_char, store_size_t, blksize, sizeof_size_t]
  · simp [init_packets, packets_loop, run_workers, rlz_encode_subroutine,
      subroutine_loop, records, fread, store_char, store_size_t, load_size_t, blksize,
      sizeof_size_t]
  · simp [init_packets, packets_loop, run_workers, rlz_encode_subroutine,
      subroutine_loop, records, fread, store_char, store_size_t, load_size_t, blksize,
      sizeof_size_t]
  · by_cases h : heap 35 = 98
    · simp [h, rlz_encode, init_packets, packets_loop, run_workers, rlz_encode_subroutine,
        subroutine_loop, reconcile_loop, records, rlz_decode, decode_loop, putc_loop, fread,
        memmove, store_char, store_size_t, load_size_t, blksize, sizeof_size_t, SIZE_MOD]
    · have h' : ¬ (98 = heap 35) := fun e => h e.symm
      simp [h, h', rlz_encode, init_packets, packets_loop, run_workers, rlz_encode_subroutine,
        subroutine_loop, reconcile_loop, records, rlz_decode, decode_loop, putc_loop, fread,
        memmove, store_char, store_size_t, load_size_t, blksize, sizeof_size_t, SIZE_MOD]

/-- C4 (single-run input), evaluated at one byte "a" with two workers, for
every prior content of the buffer: the worker of the empty chunk 0 also
writes a record (1, "a"), and decoding the output writes two copies of "a". -/
theorem single_run_fails_one_byte_two_workers (heap : Mem) :
    (rlz_encode (fread heap 0 (List.replicate 1 97)) 1 0 1 2).map
        (fun r => (rlz_decode [] r.1 1 r.2).1)
      = some (List.replicate 2 97) := by
  by_cases h : heap 18 = 97
  · simp [h, rlz_encode, init_packets, packets_loop, run_workers, rlz_encode_subroutine,
      subroutine_loop, reconcile_loop, rlz_decode, decode_loop, putc_loop, fread,
      memmove, store_char, store_size_t, load_size_t, blksize, sizeof_size_t, SIZE_MOD]
  · have h' : ¬ (97 = heap 18) := fun e => h e.symm
    simp [h, h', rlz_encode, init_packets, packets_loop, run_workers, rlz_encode_subroutine,
      subroutine_loop, reconcile_loop, rlz_decode, decode_loop, putc_loop, fread,
      memmove, store_char, store_size_t, load_size_t, blksize, sizeof_size_t, SIZE_MOD]

/-- C5 (small input, many workers), evaluated at the input "a" with two
workers, the input at address 0 and the 9-byte output buffer at address 1, so
that the block of `main` is the cells 0 to 9.  Chunk 0 is empty, yet its
worker emits a record whose symbol is the byte at `inbuf[0]`, whatever the
memory holds; the value `rlz_encode` returns depends on cell 18, beyond the
block; unless that cell holds "a", the cells 10 to 18 beyond the block are
overwritten with a second record; and decoding writes "aa". -/
theorem small_input_many_workers_fails (heap : Mem) :
    init_packets 1 0 1 2 =
      [{ outbuf := 1, inbuf := 0, inbyte := 0, outbyte := 0 },
       { outbuf := 1, inbuf := 0, inbyte := 1, outbyte := 0 }] ∧
    (∀ m : Mem,
      (rlz_encode_subroutine m { outbuf := 1, inbuf := 0, inbyte := 0, outbyte := 0 }).2.outbyte
          = blksize ∧
      records (rlz_encode_subroutine m
          { outbuf := 1, inbuf := 0, inbyte := 0, outbyte := 0 }).1 1 1 = [(1, m 0)]) ∧
    (rlz_encode (fread heap 0 [97]) 1 0 1 2).map
        (fun r => (r.2, bytes_at r.1 10 9, (rlz_decode [] r.1 1 r.2).1))
      = some (if heap 18 = 97 then (9, bytes_at heap 10 9, [97, 97])
          else (18, [1, 0, 0, 0, 0, 0, 0, 0, 97], [97, 97])) := by
  refine ⟨by decide, ?_, ?_⟩
  · intro m
    simp [rlz_encode_subroutine, subroutine_loop, records, store_char, store_size_t,
      load_size_t, blksize, sizeof_size_t]
  · by_cases h : heap 18 = 97
    · simp [h, rlz_encode, init_packets, packets_loop, run_workers, rlz_encode_subroutine,
        subroutine_loop, reconcile_loop, rlz_decode, decode_loop, putc_loop, fread, bytes_at,
        memmove, store_char, store_size_t, load_size_t, blksize, sizeof_size_t, SIZE_MOD]
    · have h' : ¬ (97 = heap 18) := fun e => h e.symm
      simp [h, h', rlz_encode, init_packets, packets_loop, run_workers, rlz_encode_subroutine,
        subroutine_loop, reconcile_loop, rlz_decode, decode_loop, putc_loop, fread, bytes_at,
        memmove, store_char, store_size_t, load_size_t, blksize, sizeof_size_t, SIZE_MOD]

/-- C6 as stated fails: called with `inbyte = 0` and one worker on zeroed
memory, `rlz_encode` returns 9 (one record), not 0. -/
theorem rlz_encode_empty_input_returns_nonzero :
    (rlz_encode (fun _ => 0) 0 0 0 1).map (fun r => r.2) = some 9 ∧
    (rlz_encode (fun _ => 0) 0 0 0 1).map (fun r => r.2) ≠ some 0 := by
  have h : (rlz_encode (fun _ => 0) 0 0 0 1).map (fun r => r.2) = some 9 := by
    simp [rlz_encode, init_packets, packets_loop, run_workers, rlz_encode_subroutine,
      subroutine_loop, reconcile_loop, blksize, sizeof_size_t]
  exact ⟨h, by rw [h]; decide⟩

/-- C6 as amended (empty input): for every worker count, every block address
and every content of memory, the compressing run of `main` on an empty input
file stops at the `finsize == 0` test, before `rlz_encode` is called, and the
output file gets no byte. -/
theorem main_compress_empty_input (heap : Mem) (block maxthrd_count : Nat) :
    main_compress heap block [] maxthrd_count = some [] := by
  simp [main_compress]

/-- C7 as stated fails: a buffer of 10 bytes (one record (2, "a") and one
stray byte) is decoded like its first 9 bytes; `rlz_decode` writes "aa" and
returns the record count 1. -/
theorem rlz_decode_accepts_truncated_input :
    rlz_decode [] (store_char (store_size_t (fun _ => 0) 0 2) 8 97) 0 10 = ([97, 97], 1) ∧
    rlz_decode [] (store_char (store_size_t (fun _ => 0) 0 2) 8 97) 0 10
      = rlz_decode [] (store_char (store_size_t (fun _ => 0) 0 2) 8 97) 0 9 := by
  constructor <;>
    simp [rlz_decode, decode_loop, putc_loop, store_char, store_size_t, load_size_t, blksize,
      sizeof_size_t]

/-- C7 as amended: `rlz_decode` has no error result.  For an input of any
length it decodes the `inbyte / RECORD_SIZE` complete leading records, returns
that number, and ignores the `inbyte % RECORD_SIZE` bytes that follow them:
the result is that for the input cut down to whole records. -/
theorem rlz_decode_ignores_trailing_bytes (fp : List Nat) (m : Mem) (inbuf inbyte : Nat) :
    rlz_decode fp m inbuf inbyte
      = (fp ++ expand (records m inbuf (inbyte / blksize)), inbyte / blksize) ∧
    rlz_decode fp m inbuf inbyte = rlz_decode fp m inbuf (inbyte / blksize * blksize) := by
  constructor
  · simp only [rlz_decode]
    rw [decode_loop_eq]
  · simp only [rlz_decode]
    rw [Nat.mul_div_cancel _ (by decide : 0 < blksize)]

/-! ## The worker on empty chunks, the option `-j`, the seam test -/

/-- The reconciliation loop on a list of packets followed by another list is
the loop on the first list followed by the loop on the second: the state after
the first `i` packets is the state at the start of iteration `i`. -/
theorem reconcile_loop_append (xs ys : List rlz_encoding_packet) : ∀ (m : Mem) (curr : Nat),
    reconcile_loop m curr (xs ++ ys)
      = reconcile_loop (reconcile_loop m curr xs).1 (reconcile_loop m curr xs).2 ys := by
  induction xs with
  | nil => intro m curr; rfl
  | cons x xs ih =>
    intro m curr
    simp only [List.cons_append, reconcile_loop]
    split
    · exact ih _ _
    · split
      · exact ih _ _
      · exact ih _ _

/-- C11 (zero-length chunk), evaluated at any packet with `inbyte = 0`: the
worker does not return 0.  It reads `inbuf[0]`, writes one record with count 1
and that byte as symbol at the start of the output region, and sets `outbyte`
to `RECORD_SIZE`. -/
theorem rlz_encode_subroutine_zero_length (m : Mem) (outbuf inbuf outbyte : Nat) :
    (rlz_encode_subroutine m
        { outbuf := outbuf, inbuf := inbuf, inbyte := 0, outbyte := outbyte }).2.outbyte
      = blksize ∧
    records (rlz_encode_subroutine m
        { outbuf := outbuf, inbuf := inbuf, inbyte := 0, outbyte := outbyte }).1 outbuf 1
      = [(1, m inbuf)] ∧
    blksize ≠ 0 := by
  refine ⟨?_, ?_, by decide⟩
  · simp [rlz_encode_subroutine, subroutine_loop]
  · simp only [rlz_encode_subroutine, subroutine_loop, records, Nat.add_zero]
    rw [load_size_t_congr (store_size_t m outbuf 1) _ outbuf (by
      intro a h1 h2
      simp only [store_char]
      rw [if_neg (by omega)])]
    rw [load_store_size_t]
    simp [store_char, SIZE_MOD]

/-- C12 (configuration error), evaluated at the arguments "0", "" and "-3" of
`-j`: none of them is rejected.  `strtol` consumes the whole argument, so the
test `*strp != 0` passes and `maxthrd_count` becomes 0, 0 and 4294967293; with
`maxthrd_count = 0` and a non-empty input `rlz_encode` is called and does not
return (division by zero in `inbyte / maxthrd_count`).  An argument with a
trailing non-digit, such as "3a", is rejected. -/
theorem option_j_accepts_invalid_counts (heap : Mem) (block : Nat) :
    option_j [48] = some 0 ∧
    option_j [] = some 0 ∧
    option_j [45, 51] = some 4294967293 ∧
    option_j [51, 97] = none ∧
    rlz_encode (fread heap block [97]) (block + 1) block 1 0 = none ∧
    main_compress heap block [97] 0 = none := by
  refine ⟨by decide, by decide, by decide, by decide, ?_, ?_⟩
  · simp [rlz_encode]
  · simp [main_compress, rlz_encode]

/-- C13 (seam test), evaluated at the input "abbbcd" with three workers (input
at address 0, output buffer at address 6, any prior content of the buffer) at
the start of iteration 1 of the reconciliation loop.  The cursor is at 24; the
last record written has symbol "b" (cell 23); the byte the test reads is cell
32 (`curr + sizeof(size_t)`), which holds the stale "b" of chunk 1, while the
symbol of the first record of chunk 2 is "c" at cell 50
(`packets[2].outbuf + sizeof(size_t)`).  The merge branch is taken although
"c" differs from "b": the run of "b" ends with count 4. -/
theorem seam_test_reads_stale_byte (heap : Mem) :
    (run_workers (fread heap 0 [97, 98, 98, 98, 99, 100]) (init_packets 6 0 6 3)).2 =
      [{ outbuf := 6, inbuf := 0, inbyte := 2, outbyte := 18 },
       { outbuf := 24, inbuf := 2, inbyte := 2, outbyte := 9 },
       { outbuf := 42, inbuf := 4, inbyte := 2, outbyte := 18 }] ∧
    (reconcile_loop (run_workers (fread heap 0 [97, 98, 98, 98, 99, 100])
        (init_packets 6 0 6 3)).1 (6 + 18)
        [{ outbuf := 24, inbuf := 2, inbyte := 2, outbyte := 9 }]).2 = 24 ∧
    (reconcile_loop (run_workers (fread heap 0 [97, 98, 98, 98, 99, 100])
        (init_packets 6 0 6 3)).1 (6 + 18)
        [{ outbuf := 24, inbuf := 2, inbyte := 2, outbyte := 9 }]).1 (24 - 1) = 98 ∧
    (reconcile_loop (run_workers (fread heap 0 [97, 98, 98, 98, 99, 100])
        (init_packets 6 0 6 3)).1 (6 + 18)
        [{ outbuf := 24, inbuf := 2, inbyte := 2, outbyte := 9 }]).1 (24 + sizeof_size_t) = 98 ∧
    (reconcile_loop (run_workers (fread heap 0 [97, 98, 98, 98, 99, 100])
        (init_packets 6 0 6 3)).1 (6 + 18)
        [{ outbuf := 24, inbuf := 2, inbyte := 2, outbyte := 9 }]).1 (42 + sizeof_size_t) = 99 ∧
    (rlz_encode (fread heap 0 [97, 98, 98, 98, 99, 100]) 6 0 6 3).map
        (fun r => records r.1 6 (r.2 / blksize)) = some [(1, 97), (4, 98), (1, 100)] := by
  refine ⟨?_, ?_, ?_, ?_, ?_, ?_⟩ <;>
    simp [rlz_encode, init_packets, packets_loop, run_workers, rlz_encode_subroutine,
      subroutine_loop, reconcile_loop, records, fread, memmove,
      store_char, store_size_t, load_size_t, blksize, sizeof_size_t, SIZE_MOD]

/-- C17 (the output depends only on the input), evaluated at the input
"aaabbbccc" with two workers (input at address 0, output buffer at address 9)
for two prior contents of the buffer that differ in the one cell 35 (offset 26
of the output buffer): with zeroes `rlz_encode` returns 36 bytes holding four
records, with "b" in that cell it returns 27 bytes holding three. -/
theorem output_depends_on_prior_buffer :
    (rlz_encode (fread (fun _ => 0) 0 [97, 97, 97, 98, 98, 98, 99, 99, 99]) 9 0 9 2).map
        (fun r => (r.2, bytes_at r.1 9 r.2))
      = some (36, [3, 0, 0, 0, 0, 0, 0, 0, 97, 1, 0, 0, 0, 0, 0, 0, 0, 98,
          2, 0, 0, 0, 0, 0, 0, 0, 98, 3, 0, 0, 0, 0, 0, 0, 0, 99]) ∧
    (rlz_encode (fread (fun a => if a = 35 then 98 else 0) 0
          [97, 97, 97, 98, 98, 98, 99, 99, 99]) 9 0 9 2).map
        (fun r => (r.2, bytes_at r.1 9 r.2))
      = some (27, [3, 0, 0, 0, 0, 0, 0, 0, 97, 3, 0, 0, 0, 0, 0, 0, 0, 98,
          3, 0, 0, 0, 0, 0, 0, 0, 99]) := by
  constructor <;>
    simp [rlz_encode, init_packets, packets_loop, run_workers, rlz_encode_subroutine,
      subroutine_loop, reconcile_loop, bytes_at, fread, memmove,
      store_char, store_size_t, load_size_t, blksize, sizeof_size_t, SIZE_MOD]

/-! ## Bounds and canonical form of the worker output -/

theorem scan_runs_head (l : List Nat) : ∀ cur count : Nat,
    ∃ c rest, scan_runs cur count l = (c, cur) :: rest := by
  induction l with
  | nil => intro cur count; exact ⟨count, [], rfl⟩
  | cons b bs ih =>
    intro cur count
    simp only [scan_runs]
    split
    · exact ⟨count, _, rfl⟩
    · exact ih cur (count + 1)

theorem scan_runs_canonical (l : List Nat) : ∀ cur count : Nat,
    canonical (scan_runs cur count l) := by
  induction l with
  | nil => intro cur count; simp [scan_runs, canonical]
  | cons b bs ih =>
    intro cur count
    simp only [scan_runs]
    split
    · rename_i h
      obtain ⟨c, rest, hr⟩ := scan_runs_head bs b 1
      have hc := ih b 1
      rw [hr] at hc ⊢
      exact ⟨fun e => h e.symm, hc⟩
    · exact ih cur (count + 1)

theorem scan_runs_counts_pos (l : List Nat) : ∀ cur count : Nat, 1 ≤ count →
    ∀ r ∈ scan_runs cur count l, 1 ≤ r.1 := by
  induction l with
  | nil =>
    intro cur count hc r hr
    simp only [scan_runs, List.mem_singleton] at hr
    rw [hr]; exact hc
  | cons b bs ih =>
    intro cur count hc r hr
    simp only [scan_runs] at hr
    split at hr
    · rcases List.mem_cons.mp hr with h | h
      · rw [h]; exact hc
      · exact ih b 1 (le_refl 1) r h
    · exact ih cur (count + 1) (by omega) r hr

/-- The loop of `rlz_encode_subroutine` writes whole records only, at most one
per iteration, into the cells from the current output position on. -/
theorem subroutine_loop_bounds (inbuf : Nat) (n : Nat) : ∀ (i : Nat) (s : subroutine_state),
    ∃ k, k ≤ n ∧ (subroutine_loop inbuf n i s).outbuf = s.outbuf + blksize * k ∧
      (subroutine_loop inbuf n i s).outbyte = s.outbyte + blksize * k ∧
      ∀ a, a < s.outbuf ∨ s.outbuf + blksize * k ≤ a →
        (subroutine_loop inbuf n i s).mem a = s.mem a := by
  induction n with
  | zero => intro i s; exact ⟨0, le_refl 0, by simp [subroutine_loop], by simp [subroutine_loop],
      fun a _ => rfl⟩
  | succ n ih =>
    intro i s
    simp only [subroutine_loop]
    split
    · obtain ⟨k, hk, h1, h2, h3⟩ := ih (i + 1)
        { mem := store_char (store_size_t s.mem s.outbuf s.count) (s.outbuf + sizeof_size_t) s.cur,
          outbuf := s.outbuf + blksize, outbyte := s.outbyte + blksize,
          cur := store_char (store_size_t s.mem s.outbuf s.count)
            (s.outbuf + sizeof_size_t) s.cur (inbuf + i),
          count := 1 }
      refine ⟨k + 1, by omega, ?_, ?_, ?_⟩
      · rw [h1]; simp only [blksize, sizeof_size_t]; omega
      · rw [h2]; simp only [blksize, sizeof_size_t]; omega
      · intro a ha
        simp only [blksize, sizeof_size_t] at ha
        rw [h3 a (by simp only [blksize, sizeof_size_t]; omega)]
        simp only [store_char, store_size_t, sizeof_size_t]
        rw [if_neg (by omega), if_neg (by omega)]
    · obtain ⟨k, hk, h1, h2, h3⟩ := ih (i + 1) { s with count := s.count + 1 }
      exact ⟨k, by omega, h1, h2, h3⟩

/-- The worker on a chunk of at least one byte: `outbyte` is between one
record and one record per input byte, a whole number of records, and only the
first `outbyte` cells of the output region are written. -/
theorem rlz_encode_subroutine_bounds (m : Mem) (p : rlz_encoding_packet) (h1 : 1 ≤ p.inbyte) :
    (rlz_encode_subroutine m p).2.outbuf = p.outbuf ∧
    (rlz_encode_subroutine m p).2.inbuf = p.inbuf ∧
    (rlz_encode_subroutine m p).2.inbyte = p.inbyte ∧
    (∃ k, 1 ≤ k ∧ k ≤ p.inbyte ∧ (rlz_encode_subroutine m p).2.outbyte = blksize * k) ∧
    (∀ a, a < p.outbuf ∨ p.outbuf + (rlz_encode_subroutine m p).2.outbyte ≤ a →
      (rlz_encode_subroutine m p).1 a = m a) := by
  obtain ⟨k, hk, h2, h3, h4⟩ := subroutine_loop_bounds p.inbuf (p.inbyte - 1) 1
    { mem := m, outbuf := p.outbuf, outbyte := 0, cur := m (p.inbuf + 0), count := 1 }
  refine ⟨rfl, rfl, rfl, ⟨k + 1, by omega, by omega, ?_⟩, ?_⟩
  · simp only [rlz_encode_subroutine]
    rw [h3]
    simp only [blksize, sizeof_size_t]; omega
  · intro a ha
    simp only [rlz_encode_subroutine] at ha ⊢
    rw [h3] at ha
    simp only [blksize, sizeof_size_t] at ha h2 h4
    simp only [store_char, store_size_t, sizeof_size_t]
    rw [h2, if_neg (by omega), if_neg (by omega)]
    exact h4 a (by omega)

/-- C14 (chunk-local canonical form): for a chunk of at least one byte whose
output region does not overlap it, every record the worker leaves in the
first `outbyte` bytes of the output region has a count of at least 1, and no
two adjacent records have the same symbol. -/
theorem rlz_encode_subroutine_canonical (m : Mem) (p : rlz_encoding_packet)
    (h1 : 1 ≤ p.inbyte) (h64 : p.inbyte < SIZE_MOD)
    (hd : p.inbuf + p.inbyte ≤ p.outbuf ∨ p.outbuf + blksize * p.inbyte ≤ p.inbuf) :
    (∀ r ∈ records (rlz_encode_subroutine m p).1 p.outbuf
        ((rlz_encode_subroutine m p).2.outbyte / blksize), 1 ≤ r.1) ∧
    canonical (records (rlz_encode_subroutine m p).1 p.outbuf
        ((rlz_encode_subroutine m p).2.outbyte / blksize)) := by
  obtain ⟨h2, h3, _⟩ := rlz_encode_subroutine_records m p h1 h64 hd
  rw [h2, Nat.mul_div_cancel_left _ (by decide : 0 < blksize), h3]
  exact ⟨scan_runs_counts_pos _ _ 1 (le_refl 1), scan_runs_canonical _ _ 1⟩

/-- Witness for C14: the chunk "aab" at address 0 with its output region at
address 3. -/
theorem rlz_encode_subroutine_canonical_witness :
    (1 ≤ 3 ∧ 3 < SIZE_MOD ∧ (0 + 3 ≤ 3 ∨ 3 + blksize * 3 ≤ 0)) ∧
    canonical (records (rlz_encode_subroutine (fread (fun _ => 0) 0 [97, 97, 98])
          { outbuf := 3, inbuf := 0, inbyte := 3, outbyte := 0 }).1 3
        ((rlz_encode_subroutine (fread (fun _ => 0) 0 [97, 97, 98])
          { outbuf := 3, inbuf := 0, inbyte := 3, outbyte := 0 }).2.outbyte / blksize)) :=
  ⟨⟨by decide, by decide, Or.inl (by decide)⟩,
    (rlz_encode_subroutine_canonical (fread (fun _ => 0) 0 [97, 97, 98])
      { outbuf := 3, inbuf := 0, inbyte := 3, outbyte := 0 }
      (by decide) (by decide) (Or.inl (by decide))).2⟩

/-- C15 (worker output bound): for a chunk of `n >= 1` bytes the `outbyte` the
worker returns is a multiple of `RECORD_SIZE`, positive, and at most
`RECORD_SIZE * n`, and every cell outside the first `outbyte` bytes of the
output region holds after the call what it held before. -/
theorem rlz_encode_subroutine_output_bound (m : Mem) (p : rlz_encoding_packet)
    (h1 : 1 ≤ p.inbyte) :
    blksize ∣ (rlz_encode_subroutine m p).2.outbyte ∧
    0 < (rlz_encode_subroutine m p).2.outbyte ∧
    (rlz_encode_subroutine m p).2.outbyte ≤ blksize * p.inbyte ∧
    (∀ a, a < p.outbuf ∨ p.outbuf + (rlz_encode_subroutine m p).2.outbyte ≤ a →
      (rlz_encode_subroutine m p).1 a = m a) := by
  obtain ⟨_, _, _, ⟨k, hk1, hk2, hk⟩, hf⟩ := rlz_encode_subroutine_bounds m p h1
  refine ⟨⟨k, hk⟩, ?_, ?_, hf⟩
  · rw [hk]; exact Nat.mul_pos (by decide) hk1
  · rw [hk]; exact Nat.mul_le_mul_left _ hk2

/-- Witness for C15: the chunk "aab" at address 0 with its output region at
address 3; two records, 18 bytes. -/
theorem rlz_encode_subroutine_output_bound_witness :
    1 ≤ 3 ∧
    (rlz_encode_subroutine (fread (fun _ => 0) 0 [97, 97, 98])
        { outbuf := 3, inbuf := 0, inbyte := 3, outbyte := 0 }).2.outbyte = 18 ∧
    (rlz_encode_subroutine (fread (fun _ => 0) 0 [97, 97, 98])
        { outbuf := 3, inbuf := 0, inbyte := 3, outbyte := 0 }).2.outbyte ≤ blksize * 3 :=
  ⟨by decide,
    by simp [rlz_encode_subroutine, subroutine_loop, fread, store_char, store_size_t, blksize,
      sizeof_size_t],
    (rlz_encode_subroutine_output_bound (fread (fun _ => 0) 0 [97, 97, 98])
      { outbuf := 3, inbuf := 0, inbyte := 3, outbyte := 0 } (by decide)).2.2.1⟩

/-! ## One worker: the maximal-run encoding -/

theorem push_run_push_run (a b sym : Nat) (rs : List (Nat × Nat)) :
    push_run a sym (push_run b sym rs) = push_run (b + a) sym rs := by
  cases rs with
  | nil => simp [push_run]
  | cons r rs =>
    simp only [push_run]
    by_cases h : r.2 = sym
    · simp [h, push_run, Nat.add_assoc]
    · simp [h, push_run]

theorem push_run_of_ne (count sym : Nat) (r : Nat × Nat) (rs : List (Nat × Nat))
    (h : r.2 ≠ sym) : push_run count sym (r :: rs) = (count, sym) :: r :: rs := by
  simp [push_run, h]

theorem max_run_encoding_head (b : Nat) (bs : List Nat) :
    ∃ c rest, max_run_encoding (b :: bs) = (c, b) :: rest := by
  simp only [max_run_encoding]
  cases max_run_encoding bs with
  | nil => exact ⟨1, [], rfl⟩
  | cons r rs =>
    simp only [push_run]
    split
    · exact ⟨_, _, rfl⟩
    · exact ⟨_, _, rfl⟩

/-- The scan of the worker computes the maximal-run encoding: entered with a
run of `count` bytes `cur` already seen, it yields that run put in front of
the maximal-run encoding of the bytes still to be read. -/
theorem scan_runs_eq_push_run (l : List Nat) : ∀ cur count : Nat,
    scan_runs cur count l = push_run count cur (max_run_encoding l) := by
  induction l with
  | nil => intro cur count; rfl
  | cons b bs ih =>
    intro cur count
    simp only [scan_runs]
    split
    · rename_i h
      obtain ⟨c, rest, hr⟩ := max_run_encoding_head b bs
      rw [ih b 1, hr, push_run_of_ne count cur (c, b) rest h, ← hr]
      rfl
    · rename_i h
      have hb : b = cur := by simpa using h
      subst hb
      rw [ih b (count + 1)]
      simp only [max_run_encoding]
      rw [push_run_push_run, Nat.add_comm]

theorem scan_runs_eq_max_run_encoding (b : Nat) (bs : List Nat) :
    scan_runs b 1 bs = max_run_encoding (b :: bs) := by
  rw [scan_runs_eq_push_run]
  rfl

theorem max_run_encoding_replicate_append (sym : Nat) (l : List Nat) : ∀ c : Nat, 1 ≤ c →
    max_run_encoding (List.replicate c sym ++ l) = push_run c sym (max_run_encoding l) := by
  intro c
  induction c with
  | zero => intro h; omega
  | succ c ih =>
    intro _
    cases c with
    | zero => rfl
    | succ c =>
      rw [List.replicate_succ, List.cons_append]
      simp only [max_run_encoding] at ih ⊢
      rw [ih (by omega), push_run_push_run]

/-- The maximal-run encoding is the only record sequence that is canonical,
has no count of 0 and expands to the given bytes. -/
theorem max_run_encoding_unique (rs : List (Nat × Nat)) :
    canonical rs → (∀ r ∈ rs, 1 ≤ r.1) → max_run_encoding (expand rs) = rs := by
  induction rs with
  | nil => intro _ _; rfl
  | cons r rs ih =>
    intro hc hp
    rw [expand_cons, max_run_encoding_replicate_append _ _ _ (hp r (List.mem_cons_self _ _))]
    cases rs with
    | nil => simp [expand, max_run_encoding, push_run]
    | cons q qs =>
      rw [ih hc.2 (fun x hx => hp x (List.mem_cons_of_mem _ hx))]
      rw [push_run_of_ne _ _ _ _ (fun e => hc.1 e.symm)]

theorem bytes_at_fread (heap : Mem) (buf : Nat) (file : List Nat) : ∀ (n i : Nat),
    i + n = file.length → bytes_at (fread heap buf file) (buf + i) n = file.drop i := by
  intro n
  induction n with
  | zero =>
    intro i h
    simp only [bytes_at]
    rw [List.drop_eq_nil_of_le (by omega)]
  | succ n ih =>
    intro i h
    simp only [bytes_at]
    rw [Nat.add_assoc, ih (i + 1) (by omega)]
    have hi : i < file.length := by omega
    rw [List.drop_eq_getElem_cons hi]
    congr 1
    simp only [fread]
    rw [if_pos (by omega)]
    simp [List.getD_eq_getElem?_getD, List.getElem?_eq_getElem hi]

theorem bytes_at_cons (m : Mem) (p n : Nat) (h : 1 ≤ n) :
    bytes_at m p n = m p :: bytes_at m (p + 1) (n - 1) := by
  obtain ⟨k, hk⟩ : ∃ k, n = k + 1 := ⟨n - 1, by omega⟩
  subst hk
  rfl

/-- C16 (single-worker correctness): for a non-empty input `S` whose bytes do
not overlap the output buffer, `rlz_encode` with one worker returns
`RECORD_SIZE` times the number of maximal runs of `S`, the records in that
many bytes of the output buffer are the maximal-run encoding of `S`, which is
canonical with every count at least 1, and `rlz_decode` of that output writes
exactly `S`. -/
theorem rlz_encode_single_worker (heap : Mem) (S : List Nat) (inbuf outbuf : Nat)
    (hS : S ≠ []) (h64 : S.length < SIZE_MOD)
    (hd : inbuf + S.length ≤ outbuf ∨ outbuf + blksize * S.length ≤ inbuf) :
    ∃ m n, rlz_encode (fread heap inbuf S) outbuf inbuf S.length 1 = some (m, n) ∧
      n = blksize * (max_run_encoding S).length ∧
      records m outbuf (n / blksize) = max_run_encoding S ∧
      canonical (records m outbuf (n / blksize)) ∧
      (∀ r ∈ records m outbuf (n / blksize), 1 ≤ r.1) ∧
      rlz_decode [] m outbuf n = (S, (max_run_encoding S).length) := by
  have hlen : 1 ≤ S.length := by
    cases S with
    | nil => exact absurd rfl hS
    | cons b bs => simp
  have hp := rlz_encode_subroutine_records (fread heap inbuf S)
    { outbuf := outbuf, inbuf := inbuf, inbyte := S.length, outbyte := 0 } hlen h64 hd
  simp only at hp
  have hbytes : bytes_at (fread heap inbuf S) inbuf S.length = S := by
    have := bytes_at_fread heap inbuf S S.length 0 (by omega)
    simpa using this
  have hscan : scan_runs (fread heap inbuf S inbuf)
      1 (bytes_at (fread heap inbuf S) (inbuf + 1) (S.length - 1)) = max_run_encoding S := by
    rw [scan_runs_eq_max_run_encoding, ← bytes_at_cons _ _ _ hlen, hbytes]
  rw [hscan] at hp
  obtain ⟨h2, h3, _⟩ := hp
  have hcan : canonical (max_run_encoding S) := by
    rw [← hscan]; exact scan_runs_canonical _ _ _
  have hpos : ∀ r ∈ max_run_encoding S, 1 ≤ r.1 := by
    rw [← hscan]; exact scan_runs_counts_pos _ _ 1 (le_refl 1)
  have hexp : expand (max_run_encoding S) = S := by
    have h := expand_scan_runs (bytes_at (fread heap inbuf S) (inbuf + 1) (S.length - 1))
      (fread heap inbuf S inbuf) 1
    rw [hscan] at h
    have hc := bytes_at_cons (fread heap inbuf S) inbuf S.length hlen
    rw [hbytes] at hc
    rw [h]
    exact hc.symm
  refine ⟨(rlz_encode_subroutine (fread heap inbuf S)
      { outbuf := outbuf, inbuf := inbuf, inbyte := S.length, outbyte := 0 }).1,
    blksize * (max_run_encoding S).length, ?_, rfl, ?_, ?_, ?_, ?_⟩
  · simp only [rlz_encode, init_packets, packets_loop, run_workers, reconcile_loop,
      Nat.div_one, Nat.sub_self, Nat.mul_zero, Nat.add_zero, Nat.sub_zero, List.nil_append,
      if_neg (by decide : ¬ (1 = 0))]
    rw [h2]
    simp [rlz_encode_subroutine]
  · rw [Nat.mul_div_cancel_left _ (by decide : 0 < blksize)]; exact h3
  · rw [Nat.mul_div_cancel_left _ (by decide : 0 < blksize), h3]; exact hcan
  · rw [Nat.mul_div_cancel_left _ (by decide : 0 < blksize), h3]; exact hpos
  · simp only [rlz_decode]
    rw [Nat.mul_div_cancel_left _ (by decide : 0 < blksize), decode_loop_eq, h3, hexp]
    rfl

/-- Witness for C16: the input "aab" at address 0 with the output buffer at
address 3 decodes to itself. -/
theorem rlz_encode_single_worker_witness :
    ([97, 97, 98] ≠ ([] : List Nat) ∧ [97, 97, 98].length < SIZE_MOD ∧
      (0 + [97, 97, 98].length ≤ 3 ∨ 3 + blksize * [97, 97, 98].length ≤ 0)) ∧
    max_run_encoding [97, 97, 98] = [(2, 97), (1, 98)] ∧
    ∃ m n, rlz_encode (fread (fun _ => 0) 0 [97, 97, 98]) 3 0 [97, 97, 98].length 1
        = some (m, n) ∧
      n = blksize * (max_run_encoding [97, 97, 98]).length ∧
      records m 3 (n / blksize) = max_run_encoding [97, 97, 98] ∧
      canonical (records m 3 (n / blksize)) ∧
      (∀ r ∈ records m 3 (n / blksize), 1 ≤ r.1) ∧
      rlz_decode [] m 3 n = ([97, 97, 98], (max_run_encoding [97, 97, 98]).length) :=
  ⟨⟨by decide, by decide, Or.inl (by decide)⟩, by decide,
    rlz_encode_single_worker (fun _ => 0) [97, 97, 98] 0 3 (by decide) (by decide)
      (Or.inl (by decide))⟩

/-! ## Records and regions -/

theorem count_sum_cons (r : Nat × Nat) (rs : List (Nat × Nat)) :
    count_sum (r :: rs) = r.1 + count_sum rs := by
  simp [count_sum]

theorem count_sum_append (xs ys : List (Nat × Nat)) :
    count_sum (xs ++ ys) = count_sum xs + count_sum ys := by
  simp [count_sum]

theorem count_sum_eq_length_expand (rs : List (Nat × Nat)) :
    count_sum rs = (expand rs).length := by
  induction rs with
  | nil => rfl
  | cons r rs ih => rw [count_sum_cons, expand_cons, List.length_append, List.length_replicate, ih]

theorem records_length (m : Mem) (k : Nat) : ∀ p : Nat, (records m p k).length = k := by
  induction k with
  | zero => intro p; rfl
  | succ k ih => intro p; simp [records, ih]

theorem records_append (m : Mem) (a : Nat) : ∀ (p b : Nat),
    records m p (a + b) = records m p a ++ records m (p + blksize * a) b := by
  induction a with
  | zero => intro p b; simp [records]
  | succ a ih =>
    intro p b
    rw [show a + 1 + b = (a + b) + 1 by omega]
    simp only [records, List.cons_append]
    rw [ih (p + blksize) b]
    rw [show p + blksize + blksize * a = p + blksize * (a + 1) by
      simp only [blksize, sizeof_size_t]; omega]

theorem load_size_t_shift (m m' : Mem) (p p' : Nat)
    (h : ∀ t, t < sizeof_size_t → m' (p' + t) = m (p + t)) :
    load_size_t m' p' = load_size_t m p := by
  simp only [sizeof_size_t] at h
  have h0 := h 0 (by omega)
  simp only [Nat.add_zero] at h0
  simp only [load_size_t]
  rw [h0, h 1 (by omega), h 2 (by omega), h 3 (by omega), h 4 (by omega), h 5 (by omega),
    h 6 (by omega), h 7 (by omega)]

/-- Records read at `p'` in one memory and at `p` in another are the same if
the cells agree offset by offset. -/
theorem records_shift (m m' : Mem) (k : Nat) : ∀ p p' : Nat,
    (∀ t, t < blksize * k → m' (p' + t) = m (p + t)) →
    records m' p' k = records m p k := by
  induction k with
  | zero => intro p p' _; rfl
  | succ k ih =>
    intro p p' h
    simp only [blksize, sizeof_size_t] at h
    simp only [records]
    rw [ih (p + blksize) (p' + blksize) (by
      intro t ht
      simp only [blksize, sizeof_size_t] at ht ⊢
      have := h (8 + 1 + t) (by omega)
      simpa [Nat.add_assoc] using this)]
    rw [load_size_t_shift m m' p p' (by
      intro t ht
      simp only [sizeof_size_t] at ht
      exact h t (by omega))]
    rw [h sizeof_size_t (by simp only [sizeof_size_t]; omega)]

theorem regions_mono (hi : Nat) (qs : List rlz_encoding_packet) (lo lo' : Nat)
    (h : lo' ≤ lo) (hr : regions hi lo qs) : regions hi lo' qs := by
  cases qs with
  | nil => exact le_trans h hr
  | cons q qs => exact ⟨le_trans h hr.1, hr.2⟩

theorem regions_le (hi : Nat) (qs : List rlz_encoding_packet) : ∀ lo : Nat,
    regions hi lo qs → lo ≤ hi := by
  induction qs with
  | nil => intro lo h; exact h
  | cons q qs ih =>
    intro lo h
    have := ih _ h.2.2
    exact le_trans h.1 (le_trans (Nat.le_add_right _ _) this)

/-- Every packet of a list of regions lies between the bounds of the list. -/
theorem regions_mem (hi : Nat) (qs : List rlz_encoding_packet) : ∀ lo : Nat,
    regions hi lo qs → ∀ q ∈ qs, lo ≤ q.outbuf ∧ q.outbuf + blksize * q.inbyte ≤ hi ∧
      ∃ k, 1 ≤ k ∧ k ≤ q.inbyte ∧ q.outbyte = blksize * k := by
  induction qs with
  | nil => intro lo _ q hq; cases hq
  | cons x xs ih =>
    intro lo h q hq
    rcases List.mem_cons.mp hq with e | hm
    · subst e
      exact ⟨h.1, regions_le hi xs _ h.2.2, h.2.1⟩
    · obtain ⟨h1, h2, h3⟩ := ih _ h.2.2 q hm
      exact ⟨le_trans h.1 (le_trans (Nat.le_add_right _ _) h1), h2, h3⟩

/-! ## The cursor of the reconciliation loop -/

theorem memmove_outside (m : Mem) (dst src n a : Nat) (h : a < dst ∨ dst + n ≤ a) :
    memmove m dst src n a = m a := by
  simp only [memmove]
  rw [if_neg (by omega)]

theorem memmove_inside (m : Mem) (dst src n t : Nat) (h : t < n) :
    memmove m dst src n (dst + t) = m (src + t) := by
  simp only [memmove]
  rw [if_pos (by omega), Nat.add_sub_cancel_left]

theorem store_size_t_outside (m : Mem) (p v a : Nat) (h : a < p ∨ p + sizeof_size_t ≤ a) :
    store_size_t m p v a = m a := by
  simp only [store_size_t]
  rw [if_neg (by omega)]

/-- One iteration of the reconciliation loop, as far as the cursor goes: with
the cursor at or before the region of the packet, it moves forward by at most
`outbyte`, and no cell at or after the end of the data of the packet is
written. -/
theorem reconcile_step_cursor (m : Mem) (curr : Nat) (x : rlz_encoding_packet)
    (hc : curr ≤ x.outbuf) (hb : blksize ≤ x.outbyte) :
    curr ≤ (reconcile_loop m curr [x]).2 ∧
    (reconcile_loop m curr [x]).2 ≤ curr + x.outbyte ∧
    (∀ a, x.outbuf + x.outbyte ≤ a → (reconcile_loop m curr [x]).1 a = m a) := by
  simp only [blksize, sizeof_size_t] at hb
  simp only [reconcile_loop]
  split
  · refine ⟨by omega, le_refl _, ?_⟩
    intro a ha
    exact memmove_outside _ _ _ _ _ (by omega)
  · split
    · refine ⟨by omega, by simp only [blksize, sizeof_size_t]; omega, ?_⟩
      intro a ha
      dsimp only
      rw [memmove_outside _ _ _ _ _ (by simp only [blksize, sizeof_size_t]; omega)]
      exact store_size_t_outside _ _ _ _ (by simp only [blksize, sizeof_size_t]; omega)
    · refine ⟨le_refl _, by omega, ?_⟩
      intro a ha
      exact store_size_t_outside _ _ _ _ (by simp only [blksize, sizeof_size_t]; omega)

/-- The cursor over a whole prefix of the packet list: after the packets `xs`
the cursor has not gone back, it is at or before the end `lo'` of the region
of the last packet of `xs`, the packets `ys` that follow lie after `lo'`, and
no cell from `lo'` on has been written. -/
theorem reconcile_loop_cursor (xs : List rlz_encoding_packet) :
    ∀ (m : Mem) (curr lo : Nat) (ys : List rlz_encoding_packet) (hi : Nat),
    regions hi lo (xs ++ ys) → curr ≤ lo →
    curr ≤ (reconcile_loop m curr xs).2 ∧
    ∃ lo', lo ≤ lo' ∧ (reconcile_loop m curr xs).2 ≤ lo' ∧ regions hi lo' ys ∧
      (∀ a, lo' ≤ a → (reconcile_loop m curr xs).1 a = m a) := by
  induction xs with
  | nil =>
    intro m curr lo ys hi hr hc
    exact ⟨le_refl _, lo, le_refl _, hc, hr, fun a _ => rfl⟩
  | cons x xs ih =>
    intro m curr lo ys hi hr hc
    obtain ⟨h1, ⟨k, hk1, hk2, hk⟩, h3⟩ := hr
    have hb : blksize ≤ x.outbyte := by
      rw [hk]; exact Nat.le_mul_of_pos_right _ (by omega)
    have hle : x.outbyte ≤ blksize * x.inbyte := by
      rw [hk]; exact Nat.mul_le_mul_left _ hk2
    obtain ⟨s1, s2, s3⟩ := reconcile_step_cursor m curr x (le_trans hc h1) hb
    have happ := reconcile_loop_append [x] xs m curr
    simp only [List.singleton_append] at happ
    rw [happ]
    obtain ⟨t1, lo', t2, t3, t4, t5⟩ := ih (reconcile_loop m curr [x]).1
      (reconcile_loop m curr [x]).2 (x.outbuf + blksize * x.inbyte) ys hi h3 (by omega)
    refine ⟨le_trans s1 t1, lo', by omega, t3, t4, ?_⟩
    intro a ha
    rw [t5 a ha]
    exact s3 a (by omega)

theorem layout_le (hi : Nat) (ps : List rlz_encoding_packet) : ∀ lo : Nat,
    layout hi lo ps → lo ≤ hi := by
  induction ps with
  | nil => intro lo h; exact h
  | cons p ps ih =>
    intro lo h
    have := ih _ h.2.2
    exact le_trans h.1 (le_trans (Nat.le_add_right _ _) this)

theorem run_workers_length (ps : List rlz_encoding_packet) : ∀ m : Mem,
    (run_workers m ps).2.length = ps.length := by
  induction ps with
  | nil => intro m; rfl
  | cons p ps ih => intro m; simp [run_workers, ih]

theorem run_workers_map_inbyte (ps : List rlz_encoding_packet) : ∀ m : Mem,
    (run_workers m ps).2.map (fun p => p.inbyte) = ps.map (fun p => p.inbyte) := by
  induction ps with
  | nil => intro m; rfl
  | cons p ps ih =>
    intro m
    simp only [run_workers, List.map_cons, ih]
    rfl

/-- The workers turn a layout into regions, and write no cell outside the
bounds of the layout. -/
theorem run_workers_regions (ps : List rlz_encoding_packet) : ∀ (m : Mem) (lo hi : Nat),
    layout hi lo ps →
    regions hi lo (run_workers m ps).2 ∧
    (∀ a, a < lo ∨ hi ≤ a → (run_workers m ps).1 a = m a) := by
  induction ps with
  | nil => intro m lo hi h; exact ⟨h, fun a _ => rfl⟩
  | cons p ps ih =>
    intro m lo hi h
    obtain ⟨h1, h2, h3⟩ := h
    obtain ⟨b1, _, b3, ⟨k, hk1, hk2, hk⟩, b5⟩ := rlz_encode_subroutine_bounds m p h2
    obtain ⟨i1, i2⟩ := ih (rlz_encode_subroutine m p).1 (p.outbuf + blksize * p.inbyte) hi h3
    have hle := layout_le hi ps _ h3
    have hm : blksize * k ≤ blksize * p.inbyte := Nat.mul_le_mul_left _ hk2
    simp only [run_workers]
    refine ⟨⟨by rw [b1]; exact h1, ⟨k, hk1, by rw [b3]; exact hk2, hk⟩, by rw [b1, b3]; exact i1⟩,
      ?_⟩
    intro a ha
    rw [i2 a (by omega)]
    exact b5 a (by omega)

theorem packets_loop_layout (outbuf inbuf c hi : Nat) (last : rlz_encoding_packet)
    (hc : 1 ≤ c) (hl : 1 ≤ last.inbyte) (hhi : last.outbuf + blksize * last.inbyte ≤ hi)
    (n : Nat) : ∀ i : Nat, last.outbuf = outbuf + blksize * c * (i + n) →
    layout hi (outbuf + blksize * c * i) (packets_loop outbuf inbuf c n i ++ [last]) := by
  induction n with
  | zero =>
    intro i h
    simp only [packets_loop, List.nil_append, layout]
    exact ⟨by rw [h]; simp, hl, hhi⟩
  | succ n ih =>
    intro i h
    simp only [packets_loop, List.cons_append, layout]
    refine ⟨le_refl _, hc, ?_⟩
    have := ih (i + 1) (by rw [h]; congr 2; omega)
    rw [show outbuf + blksize * c * i + blksize * c = outbuf + blksize * c * (i + 1) by
      rw [Nat.mul_succ, Nat.add_assoc]]
    exact this

/-- With at least one input byte per worker the packets of `rlz_encode` are
laid out over the output buffer: the regions follow one another from `outbuf`
to `outbuf + blksize * L`. -/
theorem init_packets_layout (outbuf inbuf L N : Nat) (hN : 1 ≤ N) (hNL : N ≤ L) :
    layout (outbuf + blksize * L) outbuf (init_packets outbuf inbuf L N) := by
  have hc : 1 ≤ L / N := Nat.div_pos hNL (by omega)
  have hmul : L / N * N ≤ L := Nat.div_mul_le_self L N
  have hmul' : L / N * N = L / N * (N - 1) + L / N := by
    obtain ⟨n, hn⟩ : ∃ n, N = n + 1 := ⟨N - 1, by omega⟩
    subst hn
    simp [Nat.mul_succ]
  have h := packets_loop_layout outbuf inbuf (L / N) (outbuf + blksize * L)
    { inbuf := inbuf + L / N * (N - 1), inbyte := L - L / N * (N - 1),
      outbuf := outbuf + blksize * (L / N) * (N - 1), outbyte := 0 }
    hc (by simp only; omega)
    (by
      simp only [Nat.mul_assoc]
      rw [Nat.add_assoc, ← Nat.mul_add]
      have : L / N * (N - 1) + (L - L / N * (N - 1)) = L := by omega
      rw [this])
    (N - 1) 0 (by simp)
  simpa [init_packets] using h

theorem init_packets_head (outbuf inbuf L N : Nat) (hN : 1 ≤ N) :
    ∃ p rest, init_packets outbuf inbuf L N = p :: rest ∧ p.outbuf = outbuf ∧
      rest.length = N - 1 := by
  have hlen := init_packets_length outbuf inbuf L N hN
  have h0 := init_packets_getElem? outbuf inbuf L N 0 (by omega)
  cases hps : init_packets outbuf inbuf L N with
  | nil => rw [hps] at hlen; simp at hlen; omega
  | cons p rest =>
    rw [hps] at hlen h0
    simp only [List.getElem?_cons_zero, Option.some.injEq] at h0
    refine ⟨p, rest, rfl, ?_, ?_⟩
    · rw [h0]; simp
    · simp only [List.length_cons] at hlen; omega

theorem getElem?_split (ps : List rlz_encoding_packet) (i : Nat) (q : rlz_encoding_packet)
    (h : ps[i]? = some q) : ps = ps.take i ++ q :: ps.drop (i + 1) := by
  obtain ⟨hi, hq⟩ := List.getElem?_eq_some_iff.mp h
  rw [← hq, ← List.drop_eq_getElem_cons hi, List.take_append_drop]

/-- C18 (the write cursor never overtakes unread data): with `1 <= N <= L`,
let `p0 :: ps` be the packets after the workers.  At the start of iteration
`i` of the reconciliation loop, that is after the first `i` packets of `ps`,
with `q = packets[i + 1]`: the cursor is between `outbuf + RECORD_SIZE` and
`q.outbuf`; the cell `curr + sizeof(size_t)` of the seam test and the `outbyte`
cells from the cursor on that a `memmove` may write lie inside the output
buffer; they end at or before the region of every later packet; and no cell
from `q.outbuf` on has been written by the loop so far. -/
theorem reconcile_cursor_invariant (m : Mem) (outbuf inbuf L N : Nat)
    (hN : 1 ≤ N) (hNL : N ≤ L) :
    ∃ p0 ps, (run_workers m (init_packets outbuf inbuf L N)).2 = p0 :: ps ∧
      p0.outbuf = outbuf ∧ ps.length = N - 1 ∧
      ∀ (i : Nat) (q : rlz_encoding_packet), ps[i]? = some q →
        outbuf + blksize ≤ (reconcile_loop (run_workers m (init_packets outbuf inbuf L N)).1
            (outbuf + p0.outbyte) (ps.take i)).2 ∧
        (reconcile_loop (run_workers m (init_packets outbuf inbuf L N)).1
            (outbuf + p0.outbyte) (ps.take i)).2 ≤ q.outbuf ∧
        (reconcile_loop (run_workers m (init_packets outbuf inbuf L N)).1
            (outbuf + p0.outbyte) (ps.take i)).2 + sizeof_size_t < outbuf + blksize * L ∧
        (reconcile_loop (run_workers m (init_packets outbuf inbuf L N)).1
            (outbuf + p0.outbyte) (ps.take i)).2 + q.outbyte ≤ outbuf + blksize * L ∧
        (∀ (j : Nat) (r : rlz_encoding_packet), i < j → ps[j]? = some r →
          (reconcile_loop (run_workers m (init_packets outbuf inbuf L N)).1
            (outbuf + p0.outbyte) (ps.take i)).2 + q.outbyte ≤ r.outbuf) ∧
        (∀ a, q.outbuf ≤ a →
          (reconcile_loop (run_workers m (init_packets outbuf inbuf L N)).1
            (outbuf + p0.outbyte) (ps.take i)).1 a
            = (run_workers m (init_packets outbuf inbuf L N)).1 a) := by
  obtain ⟨hreg, _⟩ := run_workers_regions (init_packets outbuf inbuf L N) m outbuf
    (outbuf + blksize * L) (init_packets_layout outbuf inbuf L N hN hNL)
  obtain ⟨p, rest, hinit, hp, hrest⟩ := init_packets_head outbuf inbuf L N hN
  have hlen := run_workers_length (init_packets outbuf inbuf L N) m
  have hw : (run_workers m (init_packets outbuf inbuf L N)).2
      = (rlz_encode_subroutine m p).2
        :: (run_workers (rlz_encode_subroutine m p).1 rest).2 := by
    rw [hinit]; rfl
  rw [hw] at hreg
  refine ⟨_, _, hw, hp, by rw [run_workers_length]; exact hrest, ?_⟩
  intro i q hq
  obtain ⟨r1, ⟨k0, hk01, hk02, hk0⟩, r3⟩ := hreg
  have hp0 : (rlz_encode_subroutine m p).2.outbuf = outbuf := hp
  rw [hp0] at r3
  have hsplit := getElem?_split _ i q hq
  rw [hsplit] at r3
  have hcur0 : outbuf + (rlz_encode_subroutine m p).2.outbyte
      ≤ outbuf + blksize * (rlz_encode_subroutine m p).2.inbyte := by
    rw [hk0]; exact Nat.add_le_add_left (Nat.mul_le_mul_left _ hk02) _
  obtain ⟨c1, lo', c2, c3, c4, c5⟩ := reconcile_loop_cursor _
    (run_workers m (init_packets outbuf inbuf L N)).1
    (outbuf + (rlz_encode_subroutine m p).2.outbyte) _ _ _ r3 hcur0
  obtain ⟨d1, ⟨kq, hkq1, hkq2, hkq⟩, d3⟩ := c4
  have hend := regions_le _ _ _ d3
  have hq9 : blksize ≤ q.outbyte := by rw [hkq]; exact Nat.le_mul_of_pos_right _ (by omega)
  have hqle : q.outbyte ≤ blksize * q.inbyte := by rw [hkq]; exact Nat.mul_le_mul_left _ hkq2
  have h09 : blksize ≤ (rlz_encode_subroutine m p).2.outbyte := by
    rw [hk0]; exact Nat.le_mul_of_pos_right _ (by omega)
  simp only [blksize, sizeof_size_t] at *
  refine ⟨by omega, by omega, by omega, by omega, ?_, ?_⟩
  · intro j r hij hr
    have hmem : r ∈ List.drop (i + 1) (run_workers (rlz_encode_subroutine m p).1 rest).2 := by
      apply List.mem_iff_getElem?.mpr
      refine ⟨j - (i + 1), ?_⟩
      rw [List.getElem?_drop, show i + 1 + (j - (i + 1)) = j by omega]
      exact hr
    have := (regions_mem _ _ _ d3 r hmem).1
    simp only [blksize, sizeof_size_t] at this
    omega
  · intro a ha
    exact c5 a (by omega)

/-- Witness for C18: nine input bytes "aaabbbccc" at address 0, two workers,
the output buffer at address 9. -/
theorem reconcile_cursor_invariant_witness :
    (1 ≤ 2 ∧ 2 ≤ 9) ∧
    ∃ p0 ps, (run_workers (fread (fun _ => 0) 0 [97, 97, 97, 98, 98, 98, 99, 99, 99])
          (init_packets 9 0 9 2)).2 = p0 :: ps ∧
      p0.outbuf = 9 ∧ ps.length = 2 - 1 ∧
      ∀ (i : Nat) (q : rlz_encoding_packet), ps[i]? = some q →
        9 + blksize ≤ (reconcile_loop (run_workers (fread (fun _ => 0) 0
            [97, 97, 97, 98, 98, 98, 99, 99, 99]) (init_packets 9 0 9 2)).1
            (9 + p0.outbyte) (ps.take i)).2 ∧
        (reconcile_loop (run_workers (fread (fun _ => 0) 0
            [97, 97, 97, 98, 98, 98, 99, 99, 99]) (init_packets 9 0 9 2)).1
            (9 + p0.outbyte) (ps.take i)).2 ≤ q.outbuf ∧
        (reconcile_loop (run_workers (fread (fun _ => 0) 0
            [97, 97, 97, 98, 98, 98, 99, 99, 99]) (init_packets 9 0 9 2)).1
            (9 + p0.outbyte) (ps.take i)).2 + sizeof_size_t < 9 + blksize * 9 ∧
        (reconcile_loop (run_workers (fread (fun _ => 0) 0
            [97, 97, 97, 98, 98, 98, 99, 99, 99]) (init_packets 9 0 9 2)).1
            (9 + p0.outbyte) (ps.take i)).2 + q.outbyte ≤ 9 + blksize * 9 ∧
        (∀ (j : Nat) (r : rlz_encoding_packet), i < j → ps[j]? = some r →
          (reconcile_loop (run_workers (fread (fun _ => 0) 0
            [97, 97, 97, 98, 98, 98, 99, 99, 99]) (init_packets 9 0 9 2)).1
            (9 + p0.outbyte) (ps.take i)).2 + q.outbyte ≤ r.outbuf) ∧
        (∀ a, q.outbuf ≤ a →
          (reconcile_loop (run_workers (fread (fun _ => 0) 0
            [97, 97, 97, 98, 98, 98, 99, 99, 99]) (init_packets 9 0 9 2)).1
            (9 + p0.outbyte) (ps.take i)).1 a
            = (run_workers (fread (fun _ => 0) 0 [97, 97, 97, 98, 98, 98, 99, 99, 99])
                (init_packets 9 0 9 2)).1 a) :=
  ⟨⟨by decide, by decide⟩,
    reconcile_cursor_invariant (fread (fun _ => 0) 0 [97, 97, 97, 98, 98, 98, 99, 99, 99])
      9 0 9 2 (by decide) (by decide)⟩

/-! ## Counts through the reconciliation loop -/

/-- After the workers, the counts of the records of every packet add up to
the number of input bytes of the packet. -/
theorem run_workers_counts (ps : List rlz_encoding_packet) : ∀ (m : Mem) (lo hi : Nat),
    layout hi lo ps →
    (∀ p ∈ ps, p.inbyte < SIZE_MOD ∧
      (p.inbuf + p.inbyte ≤ p.outbuf ∨ p.outbuf + blksize * p.inbyte ≤ p.inbuf)) →
    ∀ q ∈ (run_workers m ps).2,
      count_sum (records (run_workers m ps).1 q.outbuf (q.outbyte / blksize)) = q.inbyte := by
  induction ps with
  | nil => intro m lo hi _ _ q hq; cases hq
  | cons p ps ih =>
    intro m lo hi h hp q hq
    obtain ⟨h1, h2, h3⟩ := h
    simp only [run_workers] at hq ⊢
    rcases List.mem_cons.mp hq with e | hm
    · subst e
      obtain ⟨h64, hd⟩ := hp p (List.mem_cons_self _ _)
      obtain ⟨e1, e2, _⟩ := rlz_encode_subroutine_records m p h2 h64 hd
      have hlen := scan_runs_length_le (bytes_at m (p.inbuf + 1) (p.inbyte - 1)) (m p.inbuf) 1
      rw [bytes_at_length] at hlen
      have hframe := (run_workers_regions ps (rlz_encode_subroutine m p).1
        (p.outbuf + blksize * p.inbyte) hi h3).2
      rw [e1, Nat.mul_div_cancel_left _ (by decide : 0 < blksize)]
      have hout : (rlz_encode_subroutine m p).2.outbuf = p.outbuf := rfl
      have hin : (rlz_encode_subroutine m p).2.inbyte = p.inbyte := rfl
      rw [hout, hin]
      rw [records_congr (rlz_encode_subroutine m p).1 _ _ p.outbuf (by
        intro a ha1 ha2
        apply hframe a
        left
        have : blksize * (scan_runs (m p.inbuf) 1
            (bytes_at m (p.inbuf + 1) (p.inbyte - 1))).length ≤ blksize * p.inbyte :=
          Nat.mul_le_mul_left _ (by omega)
        omega)]
      rw [e2, count_sum_eq_length_expand, expand_scan_runs, List.length_append,
        List.length_replicate, bytes_at_length]
      omega
    · exact ih (rlz_encode_subroutine m p).1 _ hi h3
        (fun x hx => hp x (List.mem_cons_of_mem _ hx)) q hm

theorem records_succ_last (m : Mem) (p k : Nat) :
    records m p (k + 1) = records m p k ++
      [(load_size_t m (p + blksize * k), m (p + blksize * k + sizeof_size_t))] := by
  rw [records_append]
  rfl

/-- One iteration of the reconciliation loop, as far as the counts go: if `k`
records lie before the cursor and the packet holds `kx` records at or after
the cursor, then whichever branch is taken the records before the new cursor
have the counts of both added up; there are at most `k + kx` of them. -/
theorem reconcile_step_counts (m : Mem) (curr o k kx : Nat) (x : rlz_encoding_packet)
    (hk : 1 ≤ k) (hcurr : curr = o + blksize * k) (hc : curr ≤ x.outbuf)
    (hkx : 1 ≤ kx) (hx : x.outbyte = blksize * kx)
    (hsum : count_sum (records m o k) + count_sum (records m x.outbuf kx) < SIZE_MOD) :
    ∃ k', 1 ≤ k' ∧ k' ≤ k + kx ∧ (reconcile_loop m curr [x]).2 = o + blksize * k' ∧
      count_sum (records (reconcile_loop m curr [x]).1 o k')
        = count_sum (records m o k) + count_sum (records m x.outbuf kx) := by
  simp only [reconcile_loop]
  by_cases htest : m (curr - 1) = m (curr + sizeof_size_t)
  · -- the merge branch
    rw [if_neg (by simpa using htest)]
    obtain ⟨k0, rfl⟩ : ∃ k0, k = k0 + 1 := ⟨k - 1, by omega⟩
    obtain ⟨kx0, rfl⟩ : ∃ kx0, kx = kx0 + 1 := ⟨kx - 1, by omega⟩
    have hcb : curr - blksize = o + blksize * k0 := by
      rw [hcurr]; simp only [blksize, sizeof_size_t]; omega
    have hsplit := records_succ_last m o k0
    have hxs : records m x.outbuf (kx0 + 1) =
        (load_size_t m x.outbuf, m (x.outbuf + sizeof_size_t))
          :: records m (x.outbuf + blksize) kx0 := rfl
    rw [hsplit, hxs, count_sum_append, count_sum_cons, count_sum_cons] at hsum ⊢
    simp only [count_sum, List.map_nil, List.sum_nil, Nat.add_zero] at hsum ⊢
    rw [← hcb] at hsum ⊢
    have hmod : (load_size_t m (curr - blksize) + load_size_t m x.outbuf) % SIZE_MOD
        = load_size_t m (curr - blksize) + load_size_t m x.outbuf :=
      Nat.mod_eq_of_lt (by omega)
    rw [hmod]
    -- the records before the cursor once the count is added
    have hm1 : (List.map (fun r => r.1) (records (store_size_t m (curr - blksize)
          (load_size_t m (curr - blksize) + load_size_t m x.outbuf)) o (k0 + 1))).sum
        = (List.map (fun r => r.1) (records m o k0)).sum
          + (load_size_t m (curr - blksize) + load_size_t m x.outbuf) := by
      rw [records_succ_last, ← hcb]
      rw [records_congr m _ k0 o (by
        intro a h1 h2
        exact store_size_t_outside _ _ _ _ (by omega))]
      rw [load_store_size_t, Nat.mod_eq_of_lt (by omega)]
      simp
    by_cases hone : blksize = x.outbyte
    · rw [if_neg (by simpa using hone)]
      have hkx0 : kx0 = 0 := by
        rw [hx] at hone
        simp only [blksize, sizeof_size_t] at hone
        omega
      subst hkx0
      refine ⟨k0 + 1, by omega, by omega, hcurr, ?_⟩
      dsimp only
      rw [hm1]
      simp [records]
      omega
    · rw [if_pos hone]
      refine ⟨k0 + 1 + kx0, by omega, by omega, ?_, ?_⟩
      · dsimp only
        rw [hcurr, hx]; simp only [blksize, sizeof_size_t]; omega
      · dsimp only
        rw [records_append, List.map_append, List.sum_append]
        rw [records_congr (store_size_t m (curr - blksize)
            (load_size_t m (curr - blksize) + load_size_t m x.outbuf)) _ (k0 + 1) o (by
          intro a h1 h2
          exact memmove_outside _ _ _ _ _ (by omega))]
        rw [hm1, ← hcurr]
        rw [records_shift m _ kx0 (x.outbuf + blksize) curr (by
          intro t ht
          rw [memmove_inside _ _ _ _ _ (by
            rw [hx]; simp only [blksize, sizeof_size_t] at ht ⊢; omega)]
          exact store_size_t_outside _ _ _ _ (by
            simp only [blksize, sizeof_size_t]; omega))]
        omega
  · -- the chunk is appended
    rw [if_pos htest]
    refine ⟨k + kx, by omega, le_refl _, ?_, ?_⟩
    · dsimp only
      rw [hcurr, hx, Nat.mul_add, Nat.add_assoc]
    · dsimp only
      rw [records_append, count_sum_append, ← hcurr]
      rw [records_congr m _ k o (by
        intro a h1 h2
        exact memmove_outside _ _ _ _ _ (by omega))]
      rw [records_shift m _ kx x.outbuf curr (by
        intro t ht
        exact memmove_inside _ _ _ _ _ (by rw [hx]; exact ht))]

/-- The counts over the whole reconciliation loop: with `k` records before
the cursor and the packets `xs` laid out after it, each holding records whose
counts add up to its `inbyte`, the loop ends with a whole number of records
before the cursor, inside the buffer, whose counts add up to the counts before
plus all the `inbyte`. -/
theorem reconcile_loop_counts (xs : List rlz_encoding_packet) :
    ∀ (m : Mem) (curr o k hi : Nat),
    1 ≤ k → curr = o + blksize * k → regions hi curr xs →
    (∀ x ∈ xs, count_sum (records m x.outbuf (x.outbyte / blksize)) = x.inbyte) →
    count_sum (records m o k) + (xs.map (fun p => p.inbyte)).sum < SIZE_MOD →
    ∃ k', 1 ≤ k' ∧ (reconcile_loop m curr xs).2 = o + blksize * k' ∧
      o + blksize * k' ≤ hi ∧
      count_sum (records (reconcile_loop m curr xs).1 o k')
        = count_sum (records m o k) + (xs.map (fun p => p.inbyte)).sum := by
  induction xs with
  | nil =>
    intro m curr o k hi hk hcurr hreg _ _
    exact ⟨k, hk, hcurr, by rw [← hcurr]; exact hreg, by simp [reconcile_loop]⟩
  | cons x xs ih =>
    intro m curr o k hi hk hcurr hreg hmem hsum
    obtain ⟨r1, ⟨kx, hkx1, hkx2, hkx⟩, r3⟩ := hreg
    have hxc := hmem x (List.mem_cons_self _ _)
    rw [hkx, Nat.mul_div_cancel_left _ (by decide : 0 < blksize)] at hxc
    simp only [List.map_cons, List.sum_cons] at hsum ⊢
    obtain ⟨k1, s1, s2, s3, s4⟩ := reconcile_step_counts m curr o k kx x hk hcurr r1 hkx1 hkx
      (by rw [hxc]; omega)
    have hb : blksize ≤ x.outbyte := by
      rw [hkx]; exact Nat.le_mul_of_pos_right _ (by omega)
    obtain ⟨_, c2, c3⟩ := reconcile_step_cursor m curr x r1 hb
    have hle : x.outbyte ≤ blksize * x.inbyte := by
      rw [hkx]; exact Nat.mul_le_mul_left _ hkx2
    have happ := reconcile_loop_append [x] xs m curr
    simp only [List.singleton_append] at happ
    rw [happ]
    obtain ⟨k', t1, t2, t3, t4⟩ := ih (reconcile_loop m curr [x]).1
      (reconcile_loop m curr [x]).2 o k1 hi s1 s3
      (regions_mono hi xs _ _ (by omega) r3)
      (by
        intro y hy
        obtain ⟨y1, _, ⟨ky, _, hky2, hky⟩⟩ := regions_mem hi xs _ r3 y hy
        rw [records_congr m _ _ y.outbuf (fun a h1 _ => c3 a (by omega))]
        exact hmem y (List.mem_cons_of_mem _ hy))
      (by rw [s4, hxc]; omega)
    refine ⟨k', t1, t2, t3, ?_⟩
    rw [t4, s4, hxc]
    omega

theorem init_packets_sum (outbuf inbuf L N : Nat) :
    ((init_packets outbuf inbuf L N).map (fun p => p.inbyte)).sum = L := by
  have hle : L / N * (N - 1) ≤ L :=
    le_trans (Nat.mul_le_mul_left _ (Nat.sub_le N 1)) (Nat.div_mul_le_self L N)
  simp only [init_packets, List.map_append, List.sum_append, packets_loop_sum, List.map_cons,
    List.map_nil, List.sum_cons, List.sum_nil]
  omega

theorem rlz_encode_eq (m : Mem) (outbuf inbuf L N : Nat) (p0 : rlz_encoding_packet)
    (ps : List rlz_encoding_packet) (hN : N ≠ 0)
    (hw : (run_workers m (init_packets outbuf inbuf L N)).2 = p0 :: ps) :
    rlz_encode m outbuf inbuf L N
      = some ((reconcile_loop (run_workers m (init_packets outbuf inbuf L N)).1
            (outbuf + p0.outbyte) ps).1,
          (reconcile_loop (run_workers m (init_packets outbuf inbuf L N)).1
            (outbuf + p0.outbyte) ps).2 - p0.outbuf) := by
  simp only [rlz_encode, if_neg hN]
  rw [hw]

/-- Every packet of `rlz_encode` has its input chunk inside the input and its
output region inside the output buffer. -/
theorem init_packets_mem (outbuf inbuf L N : Nat) (hN : 1 ≤ N) :
    ∀ p ∈ init_packets outbuf inbuf L N,
      inbuf ≤ p.inbuf ∧ p.inbuf + p.inbyte ≤ inbuf + L ∧ outbuf ≤ p.outbuf ∧
      p.outbuf + blksize * p.inbyte ≤ outbuf + blksize * L := by
  intro p hp
  obtain ⟨i, hi⟩ := List.mem_iff_getElem?.mp hp
  have hlt : i < N := by
    have := (List.getElem?_eq_some_iff.mp hi).1
    rw [init_packets_length outbuf inbuf L N hN] at this
    exact this
  rw [init_packets_getElem? outbuf inbuf L N i hlt] at hi
  cases hi
  have hmul : L / N * N ≤ L := Nat.div_mul_le_self L N
  have h1 : L / N * (i + 1) ≤ L / N * N := Nat.mul_le_mul_left _ (by omega)
  have h2 : L / N * (N - 1) ≤ L / N * N := Nat.mul_le_mul_left _ (by omega)
  rw [Nat.mul_succ] at h1
  simp only [Nat.mul_assoc, blksize, sizeof_size_t]
  by_cases h : i + 1 < N
  · simp only [h, if_true]
    omega
  · have hi' : i = N - 1 := by omega
    subst hi'
    simp only [h, if_false]
    omega

/-- The counts after `rlz_encode`, for any memory: with `1 <= N <= L`, `L` a
`size_t` and the input not overlapping the output buffer, the call returns a
positive whole number of records that fits the buffer, and their counts add
up to `L`. -/
theorem rlz_encode_counts (m : Mem) (outbuf inbuf L N : Nat)
    (hN : 1 ≤ N) (hNL : N ≤ L) (h64 : L < SIZE_MOD)
    (hd : inbuf + L ≤ outbuf ∨ outbuf + blksize * L ≤ inbuf) :
    ∃ m' k, rlz_encode m outbuf inbuf L N = some (m', blksize * k) ∧ 1 ≤ k ∧ k ≤ L ∧
      count_sum (records m' outbuf k) = L := by
  have hlay := init_packets_layout outbuf inbuf L N hN hNL
  obtain ⟨hreg, _⟩ := run_workers_regions (init_packets outbuf inbuf L N) m outbuf
    (outbuf + blksize * L) hlay
  have hcnt := run_workers_counts (init_packets outbuf inbuf L N) m outbuf
    (outbuf + blksize * L) hlay (by
      intro p hp
      obtain ⟨a1, a2, a3, a4⟩ := init_packets_mem outbuf inbuf L N hN p hp
      exact ⟨by omega, by omega⟩)
  have hsum : ((run_workers m (init_packets outbuf inbuf L N)).2.map (fun p => p.inbyte)).sum
      = L := by
    rw [run_workers_map_inbyte]
    exact init_packets_sum outbuf inbuf L N
  obtain ⟨p, rest, hinit, hp, _⟩ := init_packets_head outbuf inbuf L N hN
  have hw : (run_workers m (init_packets outbuf inbuf L N)).2
      = (rlz_encode_subroutine m p).2
        :: (run_workers (rlz_encode_subroutine m p).1 rest).2 := by
    rw [hinit]; rfl
  rw [hw] at hreg hcnt hsum
  have hp0 : (rlz_encode_subroutine m p).2.outbuf = outbuf := hp
  obtain ⟨_, ⟨k0, hk01, hk02, hk0⟩, r3⟩ := hreg
  have h0 := hcnt _ (List.mem_cons_self _ _)
  rw [hk0, Nat.mul_div_cancel_left _ (by decide : 0 < blksize), hp0] at h0
  simp only [List.map_cons, List.sum_cons] at hsum
  rw [hp0] at r3
  obtain ⟨k', t1, t2, t3, t4⟩ := reconcile_loop_counts
    (run_workers (rlz_encode_subroutine m p).1 rest).2
    (run_workers m (init_packets outbuf inbuf L N)).1
    (outbuf + (rlz_encode_subroutine m p).2.outbyte) outbuf k0 (outbuf + blksize * L)
    hk01 (by rw [hk0])
    (regions_mono _ _ _ _ (by
      rw [hk0]; exact Nat.add_le_add_left (Nat.mul_le_mul_left _ hk02) _) r3)
    (fun x hx => hcnt x (List.mem_cons_of_mem _ hx))
    (by rw [h0]; omega)
  refine ⟨(reconcile_loop (run_workers m (init_packets outbuf inbuf L N)).1
      (outbuf + (rlz_encode_subroutine m p).2.outbyte)
      (run_workers (rlz_encode_subroutine m p).1 rest).2).1, k', ?_, t1, ?_, ?_⟩
  · rw [rlz_encode_eq m outbuf inbuf L N _ _ (by omega) hw, t2, hp0, Nat.add_sub_cancel_left]
  · have : blksize * k' ≤ blksize * L := by omega
    exact Nat.le_of_mul_le_mul_left this (by decide)
  · rw [t4, h0]; exact hsum

/-- C19 (the decoded length is preserved): for every input `S` and worker
count `N` with `1 <= N <= length(S)`, `length(S)` a `size_t` and the input not
overlapping the output buffer, and whatever the memory held before the input
was read in, the value `rlz_encode` returns is a multiple of `RECORD_SIZE`,
positive and at most `RECORD_SIZE * length(S)`, and the counts of the records
in that many bytes of the output buffer add up to `length(S)`. -/
theorem rlz_encode_preserves_length (heap : Mem) (S : List Nat) (inbuf outbuf N : Nat)
    (hN : 1 ≤ N) (hNL : N ≤ S.length) (h64 : S.length < SIZE_MOD)
    (hd : inbuf + S.length ≤ outbuf ∨ outbuf + blksize * S.length ≤ inbuf) :
    ∃ m n, rlz_encode (fread heap inbuf S) outbuf inbuf S.length N = some (m, n) ∧
      blksize ∣ n ∧ 0 < n ∧ n ≤ blksize * S.length ∧
      count_sum (records m outbuf (n / blksize)) = S.length := by
  obtain ⟨m, k, h1, h2, h3, h4⟩ :=
    rlz_encode_counts (fread heap inbuf S) outbuf inbuf S.length N hN hNL h64 hd
  refine ⟨m, blksize * k, h1, ⟨k, rfl⟩, Nat.mul_pos (by decide) h2,
    Nat.mul_le_mul_left _ h3, ?_⟩
  rw [Nat.mul_div_cancel_left _ (by decide : 0 < blksize)]
  exact h4

/-- Witness for C19: the input "aaabbbccc" at address 0 with two workers, the
output buffer at address 9 and zeroed memory; the call returns 36 bytes. -/
theorem rlz_encode_preserves_length_witness :
    (1 ≤ 2 ∧ 2 ≤ [97, 97, 97, 98, 98, 98, 99, 99, 99].length ∧
      [97, 97, 97, 98, 98, 98, 99, 99, 99].length < SIZE_MOD ∧
      (0 + [97, 97, 97, 98, 98, 98, 99, 99, 99].length ≤ 9 ∨
        9 + blksize * [97, 97, 97, 98, 98, 98, 99, 99, 99].length ≤ 0)) ∧
    ∃ m n, rlz_encode (fread (fun _ => 0) 0 [97, 97, 97, 98, 98, 98, 99, 99, 99]) 9 0
        [97, 97, 97, 98, 98, 98, 99, 99, 99].length 2 = some (m, n) ∧
      blksize ∣ n ∧ 0 < n ∧ n ≤ blksize * [97, 97, 97, 98, 98, 98, 99, 99, 99].length ∧
      count_sum (records m 9 (n / blksize)) = [97, 97, 97, 98, 98, 98, 99, 99, 99].length :=
  ⟨⟨by decide, by decide, by decide, Or.inl (by decide)⟩,
    rlz_encode_preserves_length (fun _ => 0) [97, 97, 97, 98, 98, 98, 99, 99, 99] 0 9 2
      (by decide) (by decide) (by decide) (Or.inl (by decide))⟩

end Rlz
